import Mathlib

/-!
# goalias: the edit applier and the request registry

A shallow embedding of `internal/lsp/workspace.go` and `internal/lsp/client.go`.

Conventions of the embedding

* A Go `string` is its sequence of bytes (`GoString`); `len`, indexing and
  slicing are byte based, as in Go.
* An index or slice expression that Go would abort with a run-time panic is
  `none`; the functions that index or slice therefore live in `Option`.
* `protocol.Position` has `uint32` fields which the code converts with
  `int(...)`; on the 64-bit targets of the tool the conversion keeps the
  value, so the fields are kept as natural numbers.
-/

namespace Goalias

/-! ## Strings -/

/-- A Go string: an immutable sequence of bytes. -/
abbrev GoString := List UInt8

/-- The bytes of an ASCII literal. -/
def ascii (s : String) : GoString := s.toList.map (fun c => c.toNat.toUInt8)

/-- The line separator byte `'\n'`. -/
def newline : UInt8 := 10

/-- Go `s[:hi]` on a string or slice; panics (here `none`) when `hi > len(s)`. -/
def sliceTo {α : Type} (s : List α) (hi : Nat) : Option (List α) :=
  if hi ≤ s.length then some (s.take hi) else none

/-- Go `s[lo:]` on a string or slice; panics (here `none`) when `lo > len(s)`. -/
def sliceFrom {α : Type} (s : List α) (lo : Nat) : Option (List α) :=
  if lo ≤ s.length then some (s.drop lo) else none

/-- Go `strings.Split(s, "\n")`: the pieces of `s` between separators; a string
without separator (the empty one included) gives a single piece. -/
def splitLines : GoString → List GoString
  | [] => [[]]
  | c :: cs =>
    if c = newline then [] :: splitLines cs
    else
      match splitLines cs with
      | [] => [[c]]
      | l :: ls => (c :: l) :: ls

/-- Go `strings.Join(lines, "\n")`. -/
def joinLines : List GoString → GoString
  | [] => []
  | [l] => l
  | l :: ls => l ++ newline :: joinLines ls

/-! ## LSP protocol types (`go.lsp.dev/protocol`) -/

/-- `protocol.Position`: zero-based line and character. -/
structure Position where
  Line : Nat
  Character : Nat
  deriving DecidableEq, Repr

/-- `protocol.Range`: start and end position. -/
structure Range where
  Start : Position
  End : Position
  deriving DecidableEq, Repr

/-- `protocol.TextEdit`: a range and its replacement text. -/
structure TextEdit where
  Range : Range
  NewText : GoString
  deriving DecidableEq, Repr

/-- Builds the edit replacing `(sl, sc) .. (el, ec)` by `t`. -/
def mkEdit (sl sc el ec : Nat) (t : GoString) : TextEdit :=
  ⟨⟨⟨sl, sc⟩, ⟨el, ec⟩⟩, t⟩

/-! ## `applyEditToLines` (workspace.go, lines 131-176) -/

/-- Go `make([]string, 0, capacity)`: panics when the capacity is negative. -/
def makeSlice (capacity : Int) : Option (List GoString) :=
  if capacity < 0 then none else some []

/-- Model of `applyEditToLines(lines, edit)`. -/
def applyEditToLines (lines : List GoString) (edit : TextEdit) : Option (List GoString) :=
  let startLine := edit.Range.Start.Line
  let startChar := edit.Range.Start.Character
  let endLine := edit.Range.End.Line
  let endChar := edit.Range.End.Character
  -- Handle single line edit
  if startLine = endLine then
    if startLine < lines.length then do
      let line ← lines[startLine]?
      if startChar ≤ line.length ∧ endChar ≤ line.length then do
        let head ← sliceTo line startChar
        let tail ← sliceFrom line endChar
        let newLine := head ++ edit.NewText ++ tail
        some (lines.set startLine newLine)
      else some lines
    else some lines
  -- Handle multi-line edit
  else if startLine < lines.length ∧ endLine < lines.length then do
    let first ← lines[startLine]?
    let pre ← if startChar < first.length then sliceTo first startChar else some []
    let last ← lines[endLine]?
    let suffix ← if endChar < last.length then sliceFrom last endChar else some []
    let newContent := pre ++ edit.NewText ++ suffix
    let result ← makeSlice ((lines.length : Int) - ((endLine : Int) - (startLine : Int)))
    let before ← sliceTo lines startLine
    let after ← sliceFrom lines (endLine + 1)
    some (result ++ before ++ [newContent] ++ after)
  else some lines

/-- The value `applyEditToLines` computes, written without the run-time checks
of indexing and slicing; `applyEditToLines_eq_some` shows that the checks never
fail and that this is the result. -/
def editedLines (lines : List GoString) (edit : TextEdit) : List GoString :=
  let startLine := edit.Range.Start.Line
  let startChar := edit.Range.Start.Character
  let endLine := edit.Range.End.Line
  let endChar := edit.Range.End.Character
  if startLine = endLine then
    match lines[startLine]? with
    | some line =>
      if startChar ≤ line.length ∧ endChar ≤ line.length then
        lines.set startLine (line.take startChar ++ edit.NewText ++ line.drop endChar)
      else lines
    | none => lines
  else if startLine < lines.length ∧ endLine < lines.length then
    let first := lines[startLine]?.getD []
    let last := lines[endLine]?.getD []
    lines.take startLine
      ++ [(if startChar < first.length then first.take startChar else [])
            ++ edit.NewText
            ++ (if endChar < last.length then last.drop endChar else [])]
      ++ lines.drop (endLine + 1)
  else lines

/-! ## `uriToFilePath` (workspace.go, lines 178-185) -/

/-- Model of `uriToFilePath(uri)`: `strings.HasPrefix` guards the slice `uri[7:]`. -/
def uriToFilePath (uri : GoString) : Option GoString :=
  if (ascii "file://").isPrefixOf uri then sliceFrom uri 7 else some uri

/-! ## `applyEditsToContent` (workspace.go, lines 93-128) -/

/-- Values of Go's `error` built by this package. `os` is an error coming from
the operating system or a library; the others are the `fmt.Errorf` values of
the source, each named after its message. -/
inductive GoError where
  | os (msg : GoString)
  | nilEdit
  | readFile (filePath : GoString) (err : GoError)
  | applyEdits (err : GoError)
  | writeFile (filePath : GoString) (err : GoError)
  | applyChanges (uri : GoString) (err : GoError)
  | applyDocumentChanges (uri : GoString) (err : GoError)
  | marshalMessage (err : GoError)
  | writeMessage (err : GoError)
  | sendRequest (err : GoError)
  | lsp (message : GoString)
  | unmarshalResult (err : GoError)
  | requestTimeout (method : GoString)
  | contextCancelled
  | notInitialized
  | absPath (err : GoError)
  | renameRequest (err : GoError)
  | initializeRequest (err : GoError)
  | initializedNotification (err : GoError)
  deriving DecidableEq, Repr

/-- The `less` closure given to `sort.Slice`: later start lines first, and on
the same start line later start characters first. -/
def editLess (edit1 edit2 : TextEdit) : Bool :=
  if edit1.Range.Start.Line ≠ edit2.Range.Start.Line then
    decide (edit1.Range.Start.Line > edit2.Range.Start.Line)
  else
    decide (edit1.Range.Start.Character > edit2.Range.Start.Character)

/-- The type of Go's `sort.Slice` on a slice of edits: it receives the `less`
function and returns the reordered slice. The standard library's algorithm is
not part of the repository and is not stable, so the model takes it as a
parameter. -/
abbrev SortSlice := (TextEdit → TextEdit → Bool) → List TextEdit → List TextEdit

/-- The documented contract of `sort.Slice` for the closure `editLess`: the
result is a rearrangement of the input in which no element is `less` than one
placed before it. -/
def SortSliceSpec (sortSlice : SortSlice) : Prop :=
  ∀ l : List TextEdit, (sortSlice editLess l).Perm l ∧
    (sortSlice editLess l).Pairwise (fun a b => editLess b a = false)

/-- A reference implementation of `sort.Slice` (insertion sort), used to run
the model on concrete inputs. -/
def insertionSortSlice : SortSlice :=
  fun less l => l.insertionSort (fun a b => less b a = false)

/-- Model of `applyEditsToContent(content, edits)`. The Go function returns
`(string, error)`; the error is the second component (`none` is `nil`). -/
def applyEditsToContent (sortSlice : SortSlice) (content : GoString)
    (edits : List TextEdit) : Option (GoString × Option GoError) :=
  if edits.length = 0 then some (content, none)
  else do
    -- Split content into lines
    let lines := splitLines content
    -- copy, then sort in reverse position order
    let sortedEdits := sortSlice editLess edits
    -- Apply edits in reverse position order
    let lines ← sortedEdits.foldlM applyEditToLines lines
    some (joinLines lines, none)

/-- The simultaneous replacement the specification describes, for edits listed
in ascending order on one line: from position `pos` on, the content up to the
next edit's start, that edit's text, and so on from the edit's end; that is
`content[pos:s1] ++ t1 ++ content[e1:s2] ++ t2 ++ ... ++ tn ++ content[en:]`. -/
def simultaneous (content : GoString) : Nat → List TextEdit → GoString
  | pos, [] => content.drop pos
  | pos, e :: rest =>
    (content.take e.Range.Start.Character).drop pos ++ e.NewText
      ++ simultaneous content e.Range.End.Character rest

/-- Edits on line 0 of a line of length `len`, listed in ascending order from
position `pos` on: `pos ≤ s1 ≤ e1 ≤ s2 ≤ e2 ≤ ... ≤ en ≤ len`, with pairwise
distinct start characters. -/
def InSequence (len : Nat) : Nat → List TextEdit → Prop
  | _, [] => True
  | pos, e :: rest =>
    e.Range.Start.Line = 0 ∧ e.Range.End.Line = 0 ∧
    pos ≤ e.Range.Start.Character ∧
    e.Range.Start.Character ≤ e.Range.End.Character ∧
    e.Range.End.Character ≤ len ∧
    (∀ e2 ∈ rest, e.Range.Start.Character < e2.Range.Start.Character) ∧
    InSequence len e.Range.End.Character rest

/-! ## `applyTextEdits` and `ApplyWorkspaceEdit` (workspace.go, lines 12-91) -/

/-- The two operating-system calls of the applier, over an arbitrary type `σ`
of file-system states: `os.ReadFile` returns the content or an error and leaves
the state alone, `os.WriteFile` returns the new state and an optional error. -/
structure FileOps (σ : Type) where
  ReadFile : σ → GoString → Except GoError GoString
  WriteFile : σ → GoString → GoString → σ × Option GoError

/-- What the process has done so far: the file-system state and the bytes
printed on standard output. -/
structure World (σ : Type) where
  fs : σ
  stdout : GoString

/-- How a call ends: normally with a `nil` error, with an error, or with a
run-time panic. -/
inductive Outcome where
  | ok
  | error (err : GoError)
  | panic
  deriving DecidableEq, Repr

/-- The two loops of the preview report: `-old`/`+new` for a changed line,
`-old` for an original line beyond the modified ones, then `+new` for every
modified line beyond the original ones. -/
def diffLines : List GoString → List GoString → GoString
  | [], modifiedLines =>
    (modifiedLines.map (fun m => ascii "+" ++ m ++ [newline])).flatten
  | line :: originalLines, [] =>
    ascii "-" ++ line ++ [newline] ++ diffLines originalLines []
  | line :: originalLines, m :: modifiedLines =>
    (if line ≠ m then ascii "-" ++ line ++ [newline] ++ (ascii "+" ++ m ++ [newline]) else [])
      ++ diffLines originalLines modifiedLines

/-- Model of `applyTextEdits(uri, edits, preview)`. -/
def applyTextEdits {σ : Type} (sortSlice : SortSlice) (ops : FileOps σ)
    (uri : GoString) (edits : List TextEdit) (preview : Bool) (w : World σ) :
    World σ × Outcome :=
  -- Convert URI to file path
  match uriToFilePath uri with
  | none => (w, .panic)
  | some filePath =>
    -- Read the file
    match ops.ReadFile w.fs filePath with
    | .error err => (w, .error (.readFile filePath err))
    | .ok content =>
      -- Apply edits
      match applyEditsToContent sortSlice content edits with
      | none => (w, .panic)
      | some (_, some err) => (w, .error (.applyEdits err))
      | some (modifiedContent, none) =>
        if preview then
          let header := ascii "--- " ++ filePath ++ [newline]
            ++ (ascii "+++ " ++ filePath ++ [newline])
          let report := diffLines (splitLines content) (splitLines modifiedContent)
          ({ w with stdout := w.stdout ++ header ++ report ++ [newline] }, .ok)
        else
          -- Write the modified content back to the file
          match ops.WriteFile w.fs filePath modifiedContent with
          | (fs, some err) => ({ w with fs := fs }, .error (.writeFile filePath err))
          | (fs, none) => ({ w with fs := fs }, .ok)

/-- `protocol.TextDocumentEdit`, reduced to the fields the applier reads. -/
structure TextDocumentEdit where
  URI : GoString
  Edits : List TextEdit

/-- `protocol.WorkspaceEdit`. `Changes` is a Go map; it is given as the list of
its entries in the order in which the `range` loop visits them (a `nil` map is
the empty list). -/
structure WorkspaceEdit where
  Changes : List (GoString × List TextEdit)
  DocumentChanges : List TextDocumentEdit

/-- The loop over `edit.Changes`: stops at the first failing document. -/
def applyChangesLoop {σ : Type} (sortSlice : SortSlice) (ops : FileOps σ) (preview : Bool) :
    List (GoString × List TextEdit) → World σ → World σ × Outcome
  | [], w => (w, .ok)
  | (uri, edits) :: rest, w =>
    match applyTextEdits sortSlice ops uri edits preview w with
    | (w1, .ok) => applyChangesLoop sortSlice ops preview rest w1
    | (w1, .error err) => (w1, .error (.applyChanges uri err))
    | (w1, .panic) => (w1, .panic)

/-- The loop over `edit.DocumentChanges`: stops at the first failing document. -/
def applyDocumentChangesLoop {σ : Type} (sortSlice : SortSlice) (ops : FileOps σ)
    (preview : Bool) : List TextDocumentEdit → World σ → World σ × Outcome
  | [], w => (w, .ok)
  | docChange :: rest, w =>
    match applyTextEdits sortSlice ops docChange.URI docChange.Edits preview w with
    | (w1, .ok) => applyDocumentChangesLoop sortSlice ops preview rest w1
    | (w1, .error err) => (w1, .error (.applyDocumentChanges docChange.URI err))
    | (w1, .panic) => (w1, .panic)

/-- Model of `ApplyWorkspaceEdit(edit, preview)`; a `nil` pointer is `none`. -/
def ApplyWorkspaceEdit {σ : Type} (sortSlice : SortSlice) (ops : FileOps σ)
    (edit : Option WorkspaceEdit) (preview : Bool) (w : World σ) : World σ × Outcome :=
  match edit with
  | none => (w, .error .nilEdit)
  | some edit =>
    -- Handle changes map
    match applyChangesLoop sortSlice ops preview edit.Changes w with
    | (w1, .ok) =>
      -- Handle document changes
      applyDocumentChangesLoop sortSlice ops preview edit.DocumentChanges w1
    | (w1, out) => (w1, out)

/-- An in-memory file system for running the model: the files are the listed
paths, every existing file can be read, and every write succeeds. -/
def memFileOps : FileOps (List (GoString × GoString)) where
  ReadFile fs path :=
    match fs.lookup path with
    | some content => .ok content
    | none => .error (.os (ascii "no such file or directory"))
  WriteFile fs path content := ((path, content) :: fs.filter (fun kv => kv.1 ≠ path), none)

/-! ## JSON-RPC identifiers and responses (client.go, lines 40-53) -/

/-- A finite `float64` value, `(-1)^neg * mant * 2^exp` with a significand of at
most 53 bits. The exponent is not bounded: no operation of the code depends on
the exponent range, and the values of this type include every finite
`float64`. -/
structure Float64 where
  neg : Bool
  mant : Nat
  exp : Int
  mant_lt : mant < 2 ^ 53
  deriving DecidableEq

namespace Float64

/-- The float has the integer value `n`. -/
def represents (f : Float64) (n : Int) : Prop :=
  (if f.neg then -1 else 1) * (f.mant : Int) * 2 ^ f.exp.toNat = n * 2 ^ (-f.exp).toNat

instance (f : Float64) (n : Int) : Decidable (f.represents n) := by
  unfold represents
  infer_instance

/-- The value with its fractional part discarded (truncation towards zero). -/
def trunc (f : Float64) : Int :=
  let magnitude : Nat := f.mant * 2 ^ f.exp.toNat / 2 ^ (-f.exp).toNat
  if f.neg then -(magnitude : Int) else magnitude

/-- Go `int64(f)`: truncation towards zero; when the truncated value does not
fit `int64` the result depends on the implementation and is given by
`overflow`. -/
def toInt64 (overflow : Float64 → Int) (f : Float64) : Int :=
  if -2 ^ 63 ≤ f.trunc ∧ f.trunc < 2 ^ 63 then f.trunc else overflow f

/-- Go `float64(i)` for an `int64`: the nearest value with a 53-bit
significand, ties to the even significand. -/
def ofInt64 (i : Int) : Float64 :=
  let a := i.natAbs
  if h : a < 2 ^ 53 then ⟨decide (i < 0), a, 0, h⟩
  else
    let shift := Nat.log2 a - 52
    let q := a / 2 ^ shift
    let r := a % 2 ^ shift
    let half := 2 ^ (shift - 1)
    let m := if half < r ∨ (r = half ∧ q % 2 = 1) then q + 1 else q
    if hm : m < 2 ^ 53 then ⟨decide (i < 0), m, shift, hm⟩
    else ⟨decide (i < 0), 2 ^ 52, shift + 1, by norm_num⟩

/-- Go `f == g` on finite floats: equality of the values, the two zeros being
equal. -/
def eq (f g : Float64) : Bool :=
  let e := min f.exp g.exp
  decide ((f.mant = 0 ∧ g.mant = 0) ∨
    (f.neg = g.neg ∧
      f.mant * 2 ^ (f.exp - e).toNat = g.mant * 2 ^ (g.exp - e).toNat))

end Float64

/-- The dynamic value of the field `ID any` of a decoded message. A JSON
number is decoded as `float64`; `int64` is what `sendRequest` uses as key;
`composite` stands for a JSON array or object, whose Go value cannot be hashed. -/
inductive ID where
  | null
  | bool (b : Bool)
  | float64 (f : Float64)
  | int64 (n : Int)
  | string (s : GoString)
  | composite
  deriving DecidableEq

/-- `JSONRPCError`; `Data` is kept as raw JSON. -/
structure JSONRPCError where
  Code : Int
  Message : GoString
  Data : Option GoString
  deriving DecidableEq

/-- `JSONRPCResponse`; `Result` is the raw JSON of the result (`none` is `nil`). -/
structure JSONRPCResponse where
  JSONRPC : GoString
  ID : ID
  Result : Option GoString
  Error : Option JSONRPCError
  deriving DecidableEq

/-! ## The client (client.go, lines 22-38) -/

/-- The write end of the pipe to the server: the bytes written so far and,
once the pipe is closed or broken, the error every further write returns. -/
structure Pipe where
  written : GoString
  failure : Option GoError

/-- The state of a `Client`.

* `requests` is `map[any]chan *JSONRPCResponse`. Its only insertion is
  `c.requests[id] = responseChan` in `sendRequest` with `id` an `int64`, so all
  keys have dynamic type `int64` and the table is given by its `int64` keys.
  The value is a reference to a channel.
* `chans` is the heap of the channels made so far (`make(chan, 1)`): the
  reference `i` denotes the `i`-th channel, whose one-place buffer is empty
  (`none`) or holds a response.
* `done` tells whether `ctx` has been cancelled. -/
structure Client where
  stdin : Pipe
  requestID : Int
  requests : Int → Option Nat
  chans : List (Option JSONRPCResponse)
  done : Bool
  initialized : Bool
  rootURI : GoString

/-! ## `handleResponse` (client.go, lines 343-364) -/

/-- The normalization at the head of `handleResponse`:
`if f, ok := response.ID.(float64); ok && f == float64(int64(f))`. -/
def normalizeID (overflow : Float64 → Int) (id : ID) : ID :=
  match id with
  | .float64 f =>
    if Float64.eq f (Float64.ofInt64 (Float64.toInt64 overflow f)) then
      .int64 (Float64.toInt64 overflow f)
    else id
  | _ => id

/-- Go `responseChan, exists := c.requests[key]` for a key of type `any`:
the run-time panics on a key that cannot be hashed (outer `none`); a key of a
dynamic type other than `int64` is not in the table. -/
def lookupRequest (requests : Int → Option Nat) : ID → Option (Option Nat)
  | .int64 n => some (requests n)
  | .composite => none
  | _ => some none

/-- Model of `handleResponse(response)`; `none` is a run-time panic. -/
def handleResponse (overflow : Float64 → Int) (c : Client)
    (response : JSONRPCResponse) : Option Client :=
  -- Normalize ID type
  let normalizedID := normalizeID overflow response.ID
  match lookupRequest c.requests normalizedID with
  | none => none
  | some none => some c
  | some (some responseChan) =>
    -- select { case responseChan <- response: default: }
    match c.chans[responseChan]? with
    | some none => some { c with chans := c.chans.set responseChan (some response) }
    | _ => some c

/-! ## `sendMessage` and `sendRequest` (client.go, lines 208-288) -/

/-- Go `fmt.Sprintf("%d", n)` for a length. -/
def decimal (n : Nat) : GoString := (Nat.toDigits 10 n).map (fun c => c.toNat.toUInt8)

/-- The messages the client builds as `map[string]any`: a request carries an
`id`, a notification does not. `params` is the value of the `params` key. -/
structure OutMessage where
  id : Option Int
  method : GoString
  params : GoString

/-- The two calls into `encoding/json`: `json.Marshal` of an outgoing message,
and `json.Unmarshal` of a raw result into the caller's variable (only its
error is observed). -/
structure JSONCodec where
  Marshal : OutMessage → Except GoError GoString
  Unmarshal : GoString → Option GoError

/-- Model of `sendMessage(message)`. -/
def sendMessage (json : JSONCodec) (c : Client) (message : OutMessage) :
    Client × Option GoError :=
  match json.Marshal message with
  | .error err => (c, some (.marshalMessage err))
  | .ok data =>
    let content := ascii "Content-Length: " ++ decimal data.length ++ ascii "\r\n\r\n" ++ data
    match c.stdin.failure with
    | some err => (c, some (.writeMessage err))
    | none => ({ c with stdin := { c.stdin with written := c.stdin.written ++ content } }, none)

/-- Go `atomic.AddInt64`: two's complement addition on 64 bits. -/
def wrapInt64 (x : Int) : Int := (x + 2 ^ 63) % 2 ^ 64 - 2 ^ 63

/-- The cases of the `select` in `sendRequest`. -/
inductive SelectCase where
  | response
  | timeout
  | done
  deriving DecidableEq

/-- What the rest of the program does while `sendRequest` is blocked in its
`select`: the responses the read loop hands to `handleResponse`, whether the
context gets cancelled, and the case the scheduler prefers when several are
ready (the timer case is ready once 30 seconds have passed). -/
structure WaitEnv where
  arrivals : List JSONRPCResponse
  cancelled : Bool
  pick : SelectCase

/-- The case the `select` takes: the preferred one if it is ready, otherwise
another ready one; the timer is the last resort. -/
def selectCase (hasResponse done : Bool) : SelectCase → SelectCase
  | .response => if hasResponse then .response else if done then .done else .timeout
  | .done => if done then .done else if hasResponse then .response else .timeout
  | .timeout => .timeout

/-- Model of `sendRequest(method, params, result)`. The result is the client
state at return and either the error or, on success, the raw result that was
decoded into `result` (`none` when nothing was decoded). `wantResult` is
`result != nil`. The outer `none` means that the call never returns because
the read loop has crashed the process. -/
def sendRequest (json : JSONCodec) (overflow : Float64 → Int) (env : WaitEnv)
    (c : Client) (method params : GoString) (wantResult : Bool) :
    Option (Client × Except GoError (Option GoString)) :=
  let id := wrapInt64 (c.requestID + 1)
  let c := { c with requestID := id }
  let request : OutMessage := ⟨some id, method, params⟩
  -- Create response channel
  let responseChan := c.chans.length
  let c := { c with chans := c.chans ++ [none] }
  let c := { c with requests := Function.update c.requests id (some responseChan) }
  -- Clean up channel when done (deferred)
  let cleanup := fun (c : Client) => { c with requests := Function.update c.requests id none }
  -- Send request
  match sendMessage json c request with
  | (c, some err) => some (cleanup c, .error (.sendRequest err))
  | (c, none) =>
    -- Wait for response with timeout
    match env.arrivals.foldlM (handleResponse overflow)
        { c with done := c.done || env.cancelled } with
    | none => none
    | some c =>
      let buffered := (c.chans[responseChan]?).join
      match selectCase buffered.isSome c.done env.pick, buffered with
      | .response, some response =>
        let c := { c with chans := c.chans.set responseChan none }
        match response.Error with
        | some e => some (cleanup c, .error (.lsp e.Message))
        | none =>
          match wantResult, response.Result with
          | true, some raw =>
            match json.Unmarshal raw with
            | some err => some (cleanup c, .error (.unmarshalResult err))
            | none => some (cleanup c, .ok (some raw))
          | _, _ => some (cleanup c, .ok none)
      | .done, _ => some (cleanup c, .error .contextCancelled)
      | _, _ => some (cleanup c, .error (.requestTimeout method))

/-! ## The read loop (client.go, lines 290-341) -/

/-- The encodings of the runes that Go's `unicode.IsSpace` accepts: the six
ASCII spaces, U+0085, U+00A0, U+1680, U+2000 to U+200A, U+2028, U+2029,
U+202F, U+205F and U+3000. -/
def spaceRunes : List GoString :=
  [[9], [10], [11], [12], [13], [32], [0xC2, 0x85], [0xC2, 0xA0], [0xE1, 0x9A, 0x80],
   [0xE2, 0x80, 0x80], [0xE2, 0x80, 0x81], [0xE2, 0x80, 0x82], [0xE2, 0x80, 0x83],
   [0xE2, 0x80, 0x84], [0xE2, 0x80, 0x85], [0xE2, 0x80, 0x86], [0xE2, 0x80, 0x87],
   [0xE2, 0x80, 0x88], [0xE2, 0x80, 0x89], [0xE2, 0x80, 0x8A], [0xE2, 0x80, 0xA8],
   [0xE2, 0x80, 0xA9], [0xE2, 0x80, 0xAF], [0xE2, 0x81, 0x9F], [0xE3, 0x80, 0x80]]

/-- Removes one leading space rune, if there is one. -/
def stripSpaceLeft (s : GoString) : Option GoString :=
  (spaceRunes.find? (fun r => r.isPrefixOf s)).map (fun r => s.drop r.length)

/-- Removes one trailing space rune, if there is one. -/
def stripSpaceRight (s : GoString) : Option GoString :=
  (spaceRunes.find? (fun r => r.reverse.isPrefixOf s.reverse)).map
    (fun r => s.take (s.length - r.length))

/-- Removes leading space runes, at most `fuel` of them. -/
def trimLeftFuel : Nat → GoString → GoString
  | 0, s => s
  | fuel + 1, s =>
    match stripSpaceLeft s with
    | some rest => trimLeftFuel fuel rest
    | none => s

/-- Removes trailing space runes, at most `fuel` of them. -/
def trimRightFuel : Nat → GoString → GoString
  | 0, s => s
  | fuel + 1, s =>
    match stripSpaceRight s with
    | some rest => trimRightFuel fuel rest
    | none => s

/-- Go `strings.TrimSpace(s)`: every leading and trailing space rune removed
(a string has no more space runes than bytes). -/
def trimSpace (s : GoString) : GoString :=
  let t := trimLeftFuel s.length s
  trimRightFuel t.length t

/-- The value of a decimal digit byte. -/
def digitValue (c : UInt8) : Option Nat :=
  if 48 ≤ c.toNat ∧ c.toNat ≤ 57 then some (c.toNat - 48) else none

/-- The number written by a sequence of decimal digits, continuing from `acc`;
`none` when a byte is not a digit. -/
def parseDigits : GoString → Nat → Option Nat
  | [], acc => some acc
  | c :: cs, acc =>
    match digitValue c with
    | none => none
    | some d => parseDigits cs (acc * 10 + d)

/-- Go `strconv.Atoi(s)` with a 64-bit `int`: an optional sign and at least one
decimal digit, the value within the range of `int`; `none` is an error. -/
def atoi (s : GoString) : Option Int :=
  match s with
  | [] => none
  | c :: cs =>
    let negative := decide (c = 45)
    let digits := if c = 45 ∨ c = 43 then cs else s
    if digits = [] then none
    else
      match parseDigits digits 0 with
      | none => none
      | some n =>
        let v : Int := if negative then -(n : Int) else n
        if -2 ^ 63 ≤ v ∧ v < 2 ^ 63 then some v else none

/-- Go `reader.ReadString(delim)` on the bytes that remain before the end of
the stream: the bytes up to and including the first `delim`, and what follows;
`none` when the stream ends before a `delim` (the call then returns `io.EOF`
and has consumed the stream). -/
def readString (delim : UInt8) : GoString → Option (GoString × GoString)
  | [] => none
  | c :: cs =>
    if c = delim then some ([c], cs)
    else
      match readString delim cs with
      | none => none
      | some (line, rest) => some (c :: line, rest)

/-- What one iteration of the loop of `readResponses` does with the stream. -/
inductive FrameStep where
  /-- The stream has ended: the loop returns. -/
  | eof
  /-- Run-time panic: `make([]byte, contentLength)` with a negative length. -/
  | panic
  /-- The iteration ends with `continue`; `rest` is what remains to read. -/
  | skip (rest : GoString)
  /-- A message body has been read; `rest` is what remains to read. -/
  | frame (content rest : GoString)
  deriving DecidableEq

/-- One iteration of the loop of `readResponses`, up to the body of the
message (lines 301-330). The stream is the sequence of bytes the server writes
before it closes its output. An iteration that meets the end of the stream
after its first `ReadString` ends with `continue`, and the next iteration
returns on `io.EOF` at once: both are `eof`. Of the lengths that
`make([]byte, contentLength)` refuses only the negative ones are modelled; a
length too large to allocate, which no payload has, stops the process in the
code, while here `ReadFull` meets the end of the stream. -/
def readFrame (s : GoString) : FrameStep :=
  -- Read Content-Length header
  match readString newline s with
  | none => .eof
  | some (line, rest) =>
    if ¬ (ascii "Content-Length:").isPrefixOf line then .skip rest
    else
      -- Parse content length
      let lengthStr := trimSpace (line.drop (ascii "Content-Length:").length)
      match atoi lengthStr with
      | none => .skip rest
      | some contentLength =>
        -- Read empty line
        match readString newline rest with
        | none => .eof
        | some (_, rest) =>
          -- Read message content
          if contentLength < 0 then .panic
          else if contentLength.toNat ≤ rest.length then
            .frame (rest.take contentLength.toNat) (rest.drop contentLength.toNat)
          else .eof

/-- How the read loop ends. -/
inductive ReadEnd where
  | eof
  | panic
  | outOfFuel
  deriving DecidableEq

/-- The message bodies the read loop extracts from a stream, in order, and how
the loop ends; at most `fuel` iterations. -/
def readLoop : Nat → GoString → List GoString × ReadEnd
  | 0, _ => ([], .outOfFuel)
  | fuel + 1, s =>
    match readFrame s with
    | .eof => ([], .eof)
    | .panic => ([], .panic)
    | .skip rest => readLoop fuel rest
    | .frame content rest => ((content :: (readLoop fuel rest).1), (readLoop fuel rest).2)

/-- The frame parsing of `readResponses` on a whole stream: every iteration
but the last consumes at least one byte, so one more iteration than the
stream has bytes is enough. -/
def readFrames (s : GoString) : List GoString × ReadEnd :=
  readLoop (s.length + 1) s

/-- The wire format of one message: the header `Content-Length: <N>`, an empty
line, and the `N` bytes of the payload. -/
def frame (data : GoString) : GoString :=
  ascii "Content-Length: " ++ decimal data.length ++ ascii "\r\n\r\n" ++ data

/-- An incoming JSON-RPC message, given as the members of its JSON object
after decoding (an absent or `null` identifier is `ID.null`). A message with a
`method` is a request when it has an identifier and a notification when it has
none; a message without `method` is a response. -/
structure WireMessage where
  jsonrpc : GoString
  id : ID
  method : Option GoString
  params : Option GoString
  result : Option GoString
  error : Option JSONRPCError
  deriving DecidableEq

/-- What `json.Unmarshal(content, &response)` stores in a `JSONRPCResponse`:
the members named by the struct tags `jsonrpc`, `id`, `result` and `error`;
`encoding/json` ignores the members that have no field, here `method` and
`params`. -/
def WireMessage.toResponse (m : WireMessage) : JSONRPCResponse :=
  ⟨m.jsonrpc, m.id, m.result, m.error⟩

/-- The end of an iteration of the read loop (lines 332-339): the body is
decoded and handed to `handleResponse`; a body that does not decode is
skipped. `parse` is the JSON decoder; `none` is a run-time panic. -/
def dispatch (parse : GoString → Option WireMessage) (overflow : Float64 → Int)
    (c : Client) (content : GoString) : Option Client :=
  match parse content with
  | none => some c
  | some m => handleResponse overflow c m.toResponse

/-- Model of `readResponses()` on the bytes that remain in the server's
output; at most `fuel` iterations. The loop returns once the context is
cancelled or the stream has ended; `none` is a run-time panic. -/
def readResponses (parse : GoString → Option WireMessage) (overflow : Float64 → Int) :
    Nat → GoString → Client → Option Client
  | 0, _, c => some c
  | fuel + 1, s, c =>
    if c.done then some c
    else
      match readFrame s with
      | .eof => some c
      | .panic => none
      | .skip rest => readResponses parse overflow fuel rest c
      | .frame content rest =>
        match dispatch parse overflow c content with
        | none => none
        | some c1 => readResponses parse overflow fuel rest c1

/-! ## `Initialize`, `Rename` and `Close` (client.go, lines 111-206, 262-272) -/

/-- Model of `sendNotification(method, params)`: a message without `id`. -/
def sendNotification (json : JSONCodec) (c : Client) (method params : GoString) :
    Client × Option GoError :=
  sendMessage json c ⟨none, method, params⟩

/-- What the client takes from its environment to build and read a request:
`filepath.Abs`, `uri.File`, the `params` values of the two requests and of the
notification, and the value that decoding a rename result stores in the
caller's `protocol.WorkspaceEdit`. -/
structure RequestEnv where
  Abs : GoString → Except GoError GoString
  File : GoString → GoString
  initializeParams : GoString → GoString
  initializedParams : GoString
  renameParams : GoString → Int → Int → GoString → GoString
  decodeWorkspaceEdit : GoString → WorkspaceEdit

/-- Model of `Initialize()`; `env` describes the wait of the `initialize`
request. The 100 ms sleep has no effect on the state. -/
def Initialize (json : JSONCodec) (overflow : Float64 → Int) (env : WaitEnv)
    (renv : RequestEnv) (c : Client) : Option (Client × Option GoError) :=
  if c.initialized then some (c, none)
  else
    match sendRequest json overflow env c (ascii "initialize")
        (renv.initializeParams c.rootURI) true with
    | none => none
    | some (c1, .error err) => some (c1, some (.initializeRequest err))
    | some (c1, .ok _) =>
      -- Send initialized notification
      match sendNotification json c1 (ascii "initialized") renv.initializedParams with
      | (c2, some err) => some (c2, some (.initializedNotification err))
      | (c2, none) => some ({ c2 with initialized := true }, none)

/-- Model of `Rename(filePath, line, character, newName)`: the client state at
return and the `*protocol.WorkspaceEdit` or the error. A response without
result leaves the zero `WorkspaceEdit`. The outer `none` means that the call
never returns because the read loop has crashed the process. -/
def Rename (json : JSONCodec) (overflow : Float64 → Int) (env : WaitEnv)
    (renv : RequestEnv) (c : Client) (filePath : GoString) (line character : Int)
    (newName : GoString) : Option (Client × Except GoError WorkspaceEdit) :=
  if ¬ c.initialized then some (c, .error .notInitialized)
  else
    -- Convert file path to URI
    match renv.Abs filePath with
    | .error err => some (c, .error (.absPath err))
    | .ok absPath =>
      let fileURI := renv.File absPath
      let params := renv.renameParams fileURI line character newName
      match sendRequest json overflow env c (ascii "textDocument/rename") params true with
      | none => none
      | some (c1, .error err) => some (c1, .error (.renameRequest err))
      | some (c1, .ok (some raw)) => some (c1, .ok (renv.decodeWorkspaceEdit raw))
      | some (c1, .ok none) => some (c1, .ok ⟨[], []⟩)

/-- The state of a client that has been initialized and then closed: the flag
`initialized` is set, the context is cancelled and the pipe to the server
refuses every write. -/
def ClosedAfterReady (c : Client) : Prop :=
  c.initialized = true ∧ c.done = true ∧ c.stdin.failure.isSome = true

/-- Model of `Close()` on a client made by `NewClient` (context, pipe and
process are not `nil`): the context is cancelled and the pipe is closed, so
that every later write fails; waiting for the process changes nothing in the
client. The function returns `nil`. -/
def Close (c : Client) : Client × Option GoError :=
  ({ c with
      done := true
      stdin := { c.stdin with failure := some (.os (ascii "file already closed")) } },
    none)

/-! ## Discovery helpers (internal/discovery/scanner.go, packages.go) -/

/-- The path separator byte `'/'`. -/
def slash : UInt8 := 47

/-- Go `strings.Split(s, sep)` for a separator of one byte: the pieces of `s`
between separators; a string without separator (the empty one included) gives
a single piece. -/
def splitOn (sep : UInt8) : GoString → List GoString
  | [] => [[]]
  | c :: cs =>
    if c = sep then [] :: splitOn sep cs
    else
      match splitOn sep cs with
      | [] => [[c]]
      | l :: ls => (c :: l) :: ls

/-- Model of `InferDefaultAlias(importPath)` (scanner.go, lines 61-67); the
index expression `parts[len(parts)-1]` is checked. -/
def InferDefaultAlias (importPath : GoString) : Option GoString :=
  let parts := splitOn slash importPath
  if parts.length = 0 then some []
  else parts[parts.length - 1]?

/-- `discovery.Package`. -/
structure Package where
  ImportPath : GoString
  Dir : GoString
  GoFiles : List GoString

/-- Model of `GetGoFilesFromPackages(packages)` (packages.go, lines 45-56): the
two nested `range` loops appending `fmt.Sprintf("%s/%s", pkg.Dir, goFile)`. -/
def GetGoFilesFromPackages (packages : List Package) : List GoString :=
  packages.foldl
    (fun files pkg =>
      pkg.GoFiles.foldl (fun files goFile => files ++ [pkg.Dir ++ ascii "/" ++ goFile]) files)
    []

/-! ## Values for running the client model -/

/-- The float `1.0`, as `encoding/json` decodes the identifier `1`. -/
def floatOne : Float64 := ⟨false, 1, 0, by norm_num⟩

/-- A response to request 1 carrying the raw result `result`. -/
def responseOne (result : String) : JSONRPCResponse :=
  ⟨ascii "2.0", .float64 floatOne, some (ascii result), none⟩

/-- A codec that encodes a message as its method followed by its params and
decodes every result. -/
def plainCodec : JSONCodec := ⟨fun m => .ok (m.method ++ m.params), fun _ => none⟩

/-- The `int64(f)` of amd64 for values out of range. -/
def overflowAmd64 : Float64 → Int := fun _ => -2 ^ 63

/-- A fresh, initialized client: no request sent yet. -/
def freshClient : Client := ⟨⟨[], none⟩, 0, fun _ => none, [], false, true, []⟩

/-- An environment in which a path is its own absolute path and URI, and the
params of a request are its arguments put side by side. -/
def plainRequestEnv : RequestEnv :=
  ⟨fun path => .ok path, fun path => ascii "file://" ++ path, fun root => root, ascii "{}",
    fun uri _ _ newName => uri ++ ascii " " ++ newName, fun _ => ⟨[], []⟩⟩

/-- A client that has sent `initialize` (request 1, answered) and whose rename
request 2 is pending on channel 1, its slot empty. -/
def clientAwaitingRename : Client :=
  ⟨⟨[], none⟩, 2, fun k => if k = 2 then some 1 else none, [none, none], false, true, []⟩

/-- A request of the server to the client that carries the identifier 2:
`{"jsonrpc":"2.0","id":2,"method":"workspace/configuration","params":{}}`. -/
def serverRequestTwo : WireMessage :=
  ⟨ascii "2.0", .float64 ⟨false, 2, 0, by norm_num⟩, some (ascii "workspace/configuration"),
    some (ascii "{}"), none, none⟩

/-- A client whose request 1 is pending on channel 0, the channel already
holding a first response that the waiting goroutine has not yet received. -/
def clientWithFullSlot : Client :=
  ⟨⟨[], none⟩, 1, fun k => if k = 1 then some 0 else none,
    [some (responseOne "{}")], false, true, []⟩

/-! ## The repository's table tests, replayed on the model -/

theorem test_single_line_replacement : applyEditToLines [ascii "import \"fmt\"", ascii "func main() {}"]
    (mkEdit 0 8 0 11 (ascii "os"))
    = some [ascii "import \"os\"", ascii "func main() {}"] := by decide

theorem test_multi_line_replacement : applyEditToLines [ascii "import (", ascii "\"fmt\"", ascii "\"os\"", ascii ")", ascii "func main() {}"]
    (mkEdit 1 0 2 4 (ascii "f \"fmt\""))
    = some [ascii "import (", ascii "f \"fmt\"", ascii ")", ascii "func main() {}"] := by decide

theorem test_single_line_insertion :
    applyEditToLines [ascii "import \"fmt\"", ascii "func main() {}"]
      (mkEdit 0 7 0 7 (ascii "alias "))
    = some [ascii "import alias \"fmt\"", ascii "func main() {}"] := by decide

theorem test_multiple_edits_import_statements :
    applyEditsToContent insertionSortSlice (ascii "import \"fmt\"; import \"os\"; import \"log\"")
      [mkEdit 0 8 0 11 (ascii "myfmt"), mkEdit 0 22 0 24 (ascii "myos"),
       mkEdit 0 35 0 38 (ascii "mylog")]
    = some (ascii "import \"myfmt\"; import \"myos\"; import \"mylog\"", none) := by decide

theorem test_preview_keeps_file_and_write_changes_it :
    (ApplyWorkspaceEdit insertionSortSlice memFileOps
        (some ⟨[(ascii "file:///a.go", [mkEdit 0 8 0 11 (ascii "os")])], []⟩) true
        ⟨[(ascii "/a.go", ascii "import \"fmt\"")], []⟩).1.fs
      = [(ascii "/a.go", ascii "import \"fmt\"")] ∧
    (ApplyWorkspaceEdit insertionSortSlice memFileOps
        (some ⟨[(ascii "file:///a.go", [mkEdit 0 8 0 11 (ascii "os")])], []⟩) false
        ⟨[(ascii "/a.go", ascii "import \"fmt\"")], []⟩).1.fs
      = [(ascii "/a.go", ascii "import \"os\"")] ∧
    (ApplyWorkspaceEdit insertionSortSlice memFileOps
        (some ⟨[(ascii "file:///a.go", [mkEdit 0 8 0 11 (ascii "os")])], []⟩) true
        ⟨[(ascii "/a.go", ascii "import \"fmt\"")], []⟩).1.stdout
      = ascii "--- /a.go\n+++ /a.go\n-import \"fmt\"\n+import \"os\"\n\n" := by
  decide

theorem test_sendRequest_outcomes :
    (sendRequest plainCodec overflowAmd64 ⟨[responseOne "{}"], false, .response⟩
        freshClient (ascii "initialize") (ascii "{}") true).map (fun r => (r.2, r.1.requests 1, r.1.stdin.written))
      = some (.ok (some (ascii "{}")), none, ascii "Content-Length: 12\r\n\r\ninitialize{}") ∧
    (sendRequest plainCodec overflowAmd64 ⟨[], false, .response⟩
        freshClient (ascii "initialize") (ascii "{}") true).map (fun r => (r.2, r.1.requests 1))
      = some (.error (.requestTimeout (ascii "initialize")), none) ∧
    (sendRequest plainCodec overflowAmd64 ⟨[], true, .response⟩
        freshClient (ascii "initialize") (ascii "{}") true).map (fun r => (r.2, r.1.requests 1))
      = some (.error .contextCancelled, none) ∧
    (sendRequest plainCodec overflowAmd64 ⟨[⟨[], .composite, none, none⟩], true, .response⟩
        freshClient (ascii "initialize") (ascii "{}") true).isNone = true :=
  ⟨rfl, rfl, rfl, rfl⟩

theorem test_InferDefaultAlias :
    InferDefaultAlias (ascii "fmt") = some (ascii "fmt") ∧
    InferDefaultAlias (ascii "github.com/user/repo") = some (ascii "repo") ∧
    InferDefaultAlias (ascii "") = some (ascii "") ∧
    InferDefaultAlias (ascii "/") = some (ascii "") ∧
    InferDefaultAlias (ascii "github.com/user/repo/") = some (ascii "") ∧
    InferDefaultAlias (ascii "gopkg.in/yaml.v2") = some (ascii "yaml.v2") := by
  decide

theorem test_GetGoFilesFromPackages :
    GetGoFilesFromPackages
        [⟨ascii "example.com/test", ascii "/path/to/test", [ascii "main.go"]⟩,
         ⟨ascii "example.com/utils", ascii "/path/to/utils", [ascii "helper.go", ascii "types.go"]⟩]
      = [ascii "/path/to/test/main.go", ascii "/path/to/utils/helper.go",
         ascii "/path/to/utils/types.go"] ∧
    GetGoFilesFromPackages [] = [] := by
  decide

theorem test_readFrames :
    readFrames (frame (ascii "\x7b\"id\":1\x7d") ++ frame (ascii "[\n]"))
      = ([ascii "\x7b\"id\":1\x7d", ascii "[\n]"], .eof) ∧
    readFrames (ascii "junk\nContent-Length: 2\r\n\r\n{}") = ([ascii "{}"], .eof) ∧
    readFrames (ascii "Content-Length: -1\r\n\r\n{}") = ([], .panic) ∧
    readFrames (ascii "Content-Length: x\r\n\r\nContent-Length:\t+2 \r\n\r\n{}")
      = ([ascii "{}"], .eof) ∧
    frame (ascii "{}") = ascii "Content-Length: 2\r\n\r\n{}" := by
  decide

theorem test_rename_completed_by_server_request :
    (Rename plainCodec overflowAmd64
        ⟨[({ serverRequestTwo with id := .float64 floatOne } : WireMessage).toResponse],
          false, .response⟩
        plainRequestEnv freshClient (ascii "/a.go") 3 7 (ascii "x")).map
      (fun r => match r.2 with
        | .ok edit => (true, edit.Changes.length, edit.DocumentChanges.length)
        | .error _ => (false, 0, 0))
      = some (true, 0, 0) :=
  rfl

theorem test_single_edit :
    applyEditsToContent insertionSortSlice
      (ascii "package main\n\nimport \"fmt\"\n\nfunc main() {}")
      [mkEdit 2 8 2 11 (ascii "os")]
    = some (ascii "package main\n\nimport \"os\"\n\nfunc main() {}", none) := by decide

/-! ## Properties of `applyEditToLines` -/

theorem applyEditToLines_eq_some (lines : List GoString) (edit : TextEdit) :
    applyEditToLines lines edit = some (editedLines lines edit) := by
  unfold applyEditToLines editedLines
  by_cases hse : edit.Range.Start.Line = edit.Range.End.Line
  · simp only [hse, if_true]
    by_cases hlt : edit.Range.End.Line < lines.length
    · have hget : lines[edit.Range.End.Line]? = some (lines[edit.Range.End.Line]) :=
        List.getElem?_eq_getElem hlt
      simp only [hlt, if_true, hget, Option.bind_eq_bind, Option.some_bind]
      by_cases hc : edit.Range.Start.Character ≤ (lines[edit.Range.End.Line]).length ∧
          edit.Range.End.Character ≤ (lines[edit.Range.End.Line]).length
      · simp [hc, sliceTo, sliceFrom, hc.1, hc.2]
      · simp [hc]
    · have hget : lines[edit.Range.End.Line]? = none :=
        List.getElem?_eq_none (Nat.le_of_not_lt hlt)
      simp [hlt, hget]
  · simp only [hse, if_false]
    by_cases hb : edit.Range.Start.Line < lines.length ∧ edit.Range.End.Line < lines.length
    · obtain ⟨h1, h2⟩ := hb
      have hg1 : lines[edit.Range.Start.Line]? = some (lines[edit.Range.Start.Line]) :=
        List.getElem?_eq_getElem h1
      have hg2 : lines[edit.Range.End.Line]? = some (lines[edit.Range.End.Line]) :=
        List.getElem?_eq_getElem h2
      have hcap : ¬ ((lines.length : Int) - ((edit.Range.End.Line : Int)
          - (edit.Range.Start.Line : Int)) < 0) := by omega
      simp only [h1, h2, and_self, if_true, hg1, hg2, Option.bind_eq_bind, Option.some_bind,
        Option.getD_some, makeSlice, hcap, if_false, sliceTo, sliceFrom,
        Nat.le_of_lt h1, Nat.succ_le_of_lt h2]
      by_cases hp : edit.Range.Start.Character < (lines[edit.Range.Start.Line]).length <;>
      by_cases hs : edit.Range.End.Character < (lines[edit.Range.End.Line]).length <;>
      simp [hp, hs, Nat.le_of_lt]
    · simp [hb]

/-- C1: a single-line edit on an existing line `L`, with
`startChar ≤ endChar ≤ len(lines[L])`, returns a list of the same length whose
line `L` is `lines[L][:startChar] ++ NewText ++ lines[L][endChar:]` and whose
other lines are those of the input. -/
theorem applyEditToLines_single_line (lines : List GoString) (edit : TextEdit)
    (line : GoString)
    (hsame : edit.Range.Start.Line = edit.Range.End.Line)
    (hline : lines[edit.Range.Start.Line]? = some line)
    (hchars : edit.Range.Start.Character ≤ edit.Range.End.Character)
    (hend : edit.Range.End.Character ≤ line.length) :
    ∃ result, applyEditToLines lines edit = some result ∧
      result.length = lines.length ∧
      result[edit.Range.Start.Line]? =
        some (line.take edit.Range.Start.Character ++ edit.NewText
          ++ line.drop edit.Range.End.Character) ∧
      ∀ i, i ≠ edit.Range.Start.Line → result[i]? = lines[i]? := by
  have hlt : edit.Range.Start.Line < lines.length := by
    rcases Nat.lt_or_ge edit.Range.Start.Line lines.length with h | h
    · exact h
    · rw [List.getElem?_eq_none h] at hline; cases hline
  have hval : editedLines lines edit = lines.set edit.Range.Start.Line
      (line.take edit.Range.Start.Character ++ edit.NewText
        ++ line.drop edit.Range.End.Character) := by
    unfold editedLines
    simp only [hsame, if_true]
    rw [← hsame, hline]
    simp [hend, Nat.le_trans hchars hend]
  refine ⟨_, applyEditToLines_eq_some lines edit, ?_, ?_, ?_⟩
  · rw [hval, List.length_set]
  · rw [hval, List.getElem?_set_eq_of_lt _ hlt]
  · intro i hi
    rw [hval, List.getElem?_set_ne (Ne.symm hi)]

/-- C1, at the spec's insertion example: a zero-width edit at character 7 of
`import "fmt"` inserting `alias `. -/
theorem applyEditToLines_single_line_witness :
    ∃ result, applyEditToLines [ascii "import \"fmt\"", ascii "func main() {}"]
        (mkEdit 0 7 0 7 (ascii "alias ")) = some result ∧
      result.length = [ascii "import \"fmt\"", ascii "func main() {}"].length ∧
      result[(mkEdit 0 7 0 7 (ascii "alias ")).Range.Start.Line]? =
        some ((ascii "import \"fmt\"").take (mkEdit 0 7 0 7 (ascii "alias ")).Range.Start.Character
          ++ (mkEdit 0 7 0 7 (ascii "alias ")).NewText
          ++ (ascii "import \"fmt\"").drop (mkEdit 0 7 0 7 (ascii "alias ")).Range.End.Character) ∧
      ∀ i, i ≠ (mkEdit 0 7 0 7 (ascii "alias ")).Range.Start.Line →
        result[i]? = [ascii "import \"fmt\"", ascii "func main() {}"][i]? :=
  applyEditToLines_single_line [ascii "import \"fmt\"", ascii "func main() {}"]
    (mkEdit 0 7 0 7 (ascii "alias ")) (ascii "import \"fmt\"") rfl rfl (by decide) (by decide)

/-- C2 (failing input): for the lines `["ab", "cd"]` and the multi-line edit
from line 0, character 2 (the end of `ab`) to line 1, character 0 with empty
replacement text, `applyEditToLines` returns `["cd"]`: the start line is
dropped whole, where keeping `lines[0][:2]` gives `["abcd"]`. -/
theorem applyEditToLines_multi_line_start_at_line_end :
    applyEditToLines [ascii "ab", ascii "cd"] (mkEdit 0 2 1 0 []) = some [ascii "cd"] ∧
    ([ascii "ab", ascii "cd"].take 0
        ++ [(ascii "ab").take 2 ++ [] ++ (ascii "cd").drop 0]
        ++ [ascii "ab", ascii "cd"].drop (1 + 1) = [ascii "abcd"]) ∧
    [ascii "cd"] ≠ [ascii "abcd"] := by
  decide

/-- A multi-line edit that starts before the end of its start line (or on an
empty start line) replaces the lines `startLine..endLine` by the single line
`lines[startLine][:startChar] ++ NewText ++ lines[endLine][endChar:]`. -/
theorem applyEditToLines_multi_line_inside (lines : List GoString) (edit : TextEdit)
    (first last : GoString)
    (horder : edit.Range.Start.Line < edit.Range.End.Line)
    (hfirst : lines[edit.Range.Start.Line]? = some first)
    (hlast : lines[edit.Range.End.Line]? = some last)
    (hstart : edit.Range.Start.Character < first.length ∨ first = [])
    (hend : edit.Range.End.Character ≤ last.length) :
    applyEditToLines lines edit = some
      (lines.take edit.Range.Start.Line
        ++ [first.take edit.Range.Start.Character ++ edit.NewText
            ++ last.drop edit.Range.End.Character]
        ++ lines.drop (edit.Range.End.Line + 1)) := by
  have h1 : edit.Range.Start.Line < lines.length := by
    rcases Nat.lt_or_ge edit.Range.Start.Line lines.length with h | h
    · exact h
    · rw [List.getElem?_eq_none h] at hfirst; cases hfirst
  have h2 : edit.Range.End.Line < lines.length := by
    rcases Nat.lt_or_ge edit.Range.End.Line lines.length with h | h
    · exact h
    · rw [List.getElem?_eq_none h] at hlast; cases hlast
  have hpre : (if edit.Range.Start.Character < first.length then
      first.take edit.Range.Start.Character else []) = first.take edit.Range.Start.Character := by
    rcases hstart with h | h
    · rw [if_pos h]
    · subst h; simp
  have hsuf : (if edit.Range.End.Character < last.length then
      last.drop edit.Range.End.Character else []) = last.drop edit.Range.End.Character := by
    by_cases h : edit.Range.End.Character < last.length
    · rw [if_pos h]
    · rw [if_neg h, List.drop_of_length_le (by omega)]
  rw [applyEditToLines_eq_some]
  unfold editedLines
  simp only [Nat.ne_of_lt horder, if_false, h1, h2, and_self, if_true, hfirst, hlast,
    Option.getD_some, hpre, hsuf]

/-- C5: with an empty edit sequence `applyEditsToContent` returns the content
itself and a `nil` error, whatever `sort.Slice` does. -/
theorem applyEditsToContent_no_edits (sortSlice : SortSlice) (content : GoString) :
    applyEditsToContent sortSlice content [] = some (content, none) := by
  simp [applyEditsToContent]

/-- C6: a single-line edit whose start line does not exist, or whose start or
end character is beyond the length of that line, returns the lines as they
were. -/
theorem applyEditToLines_single_line_out_of_bounds (lines : List GoString)
    (edit : TextEdit)
    (hsame : edit.Range.Start.Line = edit.Range.End.Line)
    (hout : lines.length ≤ edit.Range.Start.Line ∨
      ∃ line, lines[edit.Range.Start.Line]? = some line ∧
        (line.length < edit.Range.Start.Character ∨
          line.length < edit.Range.End.Character)) :
    applyEditToLines lines edit = some lines := by
  rw [applyEditToLines_eq_some]
  unfold editedLines
  simp only [hsame, if_true]
  rcases hout with h | ⟨line, hline, h⟩
  · rw [hsame] at h
    rw [List.getElem?_eq_none h]
  · rw [hsame] at hline
    rw [hline]
    have : ¬ (edit.Range.Start.Character ≤ line.length ∧
        edit.Range.End.Character ≤ line.length) := by omega
    simp [this]

/-- C6, at an edit that ends past the end of its line. -/
theorem applyEditToLines_single_line_out_of_bounds_witness :
    applyEditToLines [ascii "ab", ascii "cd"] (mkEdit 1 1 1 3 (ascii "x"))
      = some [ascii "ab", ascii "cd"] :=
  applyEditToLines_single_line_out_of_bounds [ascii "ab", ascii "cd"]
    (mkEdit 1 1 1 3 (ascii "x")) rfl (Or.inr ⟨ascii "cd", rfl, Or.inr (by decide)⟩)

/-- C7: `applyEditToLines` always returns, and every line of the input whose
index is below the edit's start line is found unchanged at the same index of
the result. -/
theorem applyEditToLines_preserves_earlier_lines (lines : List GoString)
    (edit : TextEdit) :
    ∃ result, applyEditToLines lines edit = some result ∧
      ∀ i, i < edit.Range.Start.Line → i < lines.length → result[i]? = lines[i]? := by
  refine ⟨_, applyEditToLines_eq_some lines edit, ?_⟩
  intro i hi hlen
  unfold editedLines
  by_cases hsame : edit.Range.Start.Line = edit.Range.End.Line
  · simp only [hsame, if_true]
    rw [hsame] at hi
    cases hget : lines[edit.Range.End.Line]? with
    | none => rfl
    | some line =>
      simp only []
      split
      · rw [List.getElem?_set_ne (Nat.ne_of_gt hi)]
      · rfl
  · simp only [hsame, if_false]
    split
    · next hb =>
      rw [List.append_assoc, List.getElem?_append_left (by
        rw [List.length_take]; exact Nat.lt_min.mpr ⟨hi, hlen⟩)]
      exact List.getElem?_take_of_lt hi
    · rfl

/-! ## Sorting: the order of application is determined by the edits -/

theorem editLess_eq_true_iff (a b : TextEdit) :
    editLess a b = true ↔
      (b.Range.Start.Line < a.Range.Start.Line ∨
        (a.Range.Start.Line = b.Range.Start.Line ∧
          b.Range.Start.Character < a.Range.Start.Character)) := by
  unfold editLess
  by_cases hl : a.Range.Start.Line = b.Range.Start.Line
  · rw [if_neg (not_not.mpr hl), decide_eq_true_iff]
    constructor
    · intro h; exact Or.inr ⟨hl, h⟩
    · rintro (h | h)
      · omega
      · exact h.2
  · rw [if_pos hl, decide_eq_true_iff]
    constructor
    · intro h; exact Or.inl h
    · rintro (h | h)
      · exact h
      · exact absurd h.1 hl

theorem editLess_eq_false_iff (a b : TextEdit) :
    editLess a b = false ↔
      (a.Range.Start.Line < b.Range.Start.Line ∨
        (a.Range.Start.Line = b.Range.Start.Line ∧
          a.Range.Start.Character ≤ b.Range.Start.Character)) := by
  rw [← Bool.not_eq_true, editLess_eq_true_iff]
  omega

theorem editLess_asymm (a b : TextEdit) (h : editLess a b = true) :
    editLess b a = false := by
  rw [editLess_eq_true_iff] at h
  rw [editLess_eq_false_iff]
  omega

theorem editLess_total_of_ne (a b : TextEdit) (h : a.Range.Start ≠ b.Range.Start) :
    editLess a b = true ∨ editLess b a = true := by
  have hne : ¬ (a.Range.Start.Line = b.Range.Start.Line ∧
      a.Range.Start.Character = b.Range.Start.Character) := by
    rintro ⟨h1, h2⟩
    apply h
    cases ha : a.Range.Start
    cases hb : b.Range.Start
    simp_all
  rw [editLess_eq_true_iff, editLess_eq_true_iff]
  omega

theorem editLess_trans_not (a b c : TextEdit) (hab : editLess b a = false)
    (hbc : editLess c b = false) : editLess c a = false := by
  rw [editLess_eq_false_iff] at *
  omega

/-- A list sorted without inversions is the only such rearrangement of a
strictly sorted list. -/
theorem eq_of_perm_of_strictly_sorted {α : Type} (lt : α → α → Bool) :
    ∀ (l2 l1 : List α), l1.Perm l2 → l1.Pairwise (fun a b => lt b a = false) →
      l2.Pairwise (fun a b => lt a b = true) → l1 = l2
  | [], l1, hp, _, _ => hp.eq_nil
  | x :: l2, l1, hp, h1, h2 => by
    have hx : x ∈ l1 := hp.symm.subset (List.mem_cons_self _ _)
    obtain ⟨u, v, rfl⟩ := List.append_of_mem hx
    have hp2 : (u ++ v).Perm l2 := (List.perm_cons x).1 (List.perm_middle.symm.trans hp)
    have hu : u = [] := by
      cases u with
      | nil => rfl
      | cons y u =>
        exfalso
        have hy : y ∈ l2 := hp2.subset (by simp)
        have hlt : lt x y = true := (List.pairwise_cons.1 h2).1 y hy
        have hnot : lt x y = false := (List.pairwise_cons.1 h1).1 x (by simp)
        rw [hlt] at hnot
        cases hnot
    subst hu
    simp only [List.nil_append] at hp2 h1 ⊢
    rw [eq_of_perm_of_strictly_sorted lt l2 v hp2 (List.pairwise_cons.1 h1).2
      (List.pairwise_cons.1 h2).2]

/-- Under the contract of `sort.Slice`, edits with pairwise distinct start
positions are put in one order only, whatever their order in the input. -/
theorem sortSlice_eq_of_perm (sortSlice : SortSlice) (hS : SortSliceSpec sortSlice)
    (edits1 edits2 : List TextEdit) (hperm : edits1.Perm edits2)
    (hdistinct : edits1.Pairwise (fun a b => a.Range.Start ≠ b.Range.Start)) :
    sortSlice editLess edits1 = sortSlice editLess edits2 := by
  obtain ⟨hp1, hs1⟩ := hS edits1
  obtain ⟨hp2, hs2⟩ := hS edits2
  have hsymm : ∀ {a b : TextEdit}, a.Range.Start ≠ b.Range.Start →
      b.Range.Start ≠ a.Range.Start := fun h => h.symm
  have hd2 : (sortSlice editLess edits2).Pairwise
      (fun a b => a.Range.Start ≠ b.Range.Start) :=
    ((hp2.trans hperm.symm).pairwise_iff hsymm).2 hdistinct
  have hstrict : (sortSlice editLess edits2).Pairwise (fun a b => editLess a b = true) := by
    have hboth := hs2.and hd2
    refine hboth.imp ?_
    intro a b hab
    rcases editLess_total_of_ne a b hab.2 with h | h
    · exact h
    · rw [hab.1] at h; cases h
  exact eq_of_perm_of_strictly_sorted editLess _ _ (hp1.trans (hperm.trans hp2.symm)) hs1 hstrict

/-- The reference insertion sort meets the contract of `sort.Slice`. -/
theorem insertionSortSlice_spec : SortSliceSpec insertionSortSlice := by
  intro l
  haveI : IsTotal TextEdit (fun a b => editLess b a = false) := ⟨fun a b => by
    cases h : editLess b a
    · exact Or.inl rfl
    · exact Or.inr (editLess_asymm b a h)⟩
  haveI : IsTrans TextEdit (fun a b => editLess b a = false) :=
    ⟨fun a b c hab hbc => editLess_trans_not a b c hab hbc⟩
  exact ⟨List.perm_insertionSort _ l, List.sorted_insertionSort _ l⟩

/-- C4: for two edit lists that are rearrangements of each other, with
pairwise distinct (start line, start character) pairs, `applyEditsToContent`
gives the same result on every content, for every `sort.Slice` meeting its
contract. -/
theorem applyEditsToContent_order_independent (sortSlice : SortSlice)
    (hS : SortSliceSpec sortSlice) (content : GoString) (edits1 edits2 : List TextEdit)
    (hperm : edits1.Perm edits2)
    (hdistinct : edits1.Pairwise (fun a b => a.Range.Start ≠ b.Range.Start)) :
    applyEditsToContent sortSlice content edits1
      = applyEditsToContent sortSlice content edits2 := by
  unfold applyEditsToContent
  rw [sortSlice_eq_of_perm sortSlice hS edits1 edits2 hperm hdistinct, hperm.length_eq]

/-- C4, at the two orders of the two replacements of the repository's test. -/
theorem applyEditsToContent_order_independent_witness :
    applyEditsToContent insertionSortSlice (ascii "import \"fmt\"; import \"os\"")
        [mkEdit 0 8 0 11 (ascii "myfmt"), mkEdit 0 22 0 24 (ascii "myos")]
      = applyEditsToContent insertionSortSlice (ascii "import \"fmt\"; import \"os\"")
        [mkEdit 0 22 0 24 (ascii "myos"), mkEdit 0 8 0 11 (ascii "myfmt")] :=
  applyEditsToContent_order_independent insertionSortSlice insertionSortSlice_spec
    (ascii "import \"fmt\"; import \"os\"")
    [mkEdit 0 8 0 11 (ascii "myfmt"), mkEdit 0 22 0 24 (ascii "myos")]
    [mkEdit 0 22 0 24 (ascii "myos"), mkEdit 0 8 0 11 (ascii "myfmt")]
    (List.Perm.swap _ _ _) (by simp [mkEdit])

/-! ## Several edits on one line -/

theorem splitLines_of_no_newline : ∀ (content : GoString), newline ∉ content →
    splitLines content = [content]
  | [], _ => rfl
  | c :: cs, h => by
    have hc : c ≠ newline := fun hc => h (by simp [hc])
    have hcs : newline ∉ cs := fun hcs => h (List.mem_cons_of_mem _ hcs)
    simp [splitLines, hc, splitLines_of_no_newline cs hcs]

theorem InSequence.strictly_descending (len : Nat) :
    ∀ (asc : List TextEdit) (pos : Nat), InSequence len pos asc →
      asc.reverse.Pairwise (fun a b => editLess a b = true)
  | [], _, _ => by simp
  | e :: rest, pos, h => by
    obtain ⟨hs, _, _, _, _, hlt, hrest⟩ := h
    rw [List.reverse_cons, List.pairwise_append]
    refine ⟨InSequence.strictly_descending len rest _ hrest, by simp, ?_⟩
    intro a ha b hb
    rw [List.mem_reverse] at ha
    rw [List.mem_singleton] at hb
    subst hb
    have hline : a.Range.Start.Line = 0 := by
      cases rest with
      | nil => cases ha
      | cons r rs =>
        have key : ∀ (l : List TextEdit) (p : Nat), InSequence len p l →
            ∀ x ∈ l, x.Range.Start.Line = 0 := by
          intro l
          induction l with
          | nil => intro _ _ x hx; cases hx
          | cons y ys ih =>
            intro p hp x hx
            rcases List.mem_cons.1 hx with rfl | hx
            · exact hp.1
            · exact ih _ hp.2.2.2.2.2.2 x hx
        exact key _ _ hrest a ha
    rw [editLess_eq_true_iff]
    right
    exact ⟨by rw [hline, hs], hlt a ha⟩

/-- Applying the edits of an ascending sequence from the last to the first
turns the single line `content` into the simultaneous replacement. -/
theorem foldlM_reverse_inSequence (content : GoString) :
    ∀ (asc : List TextEdit) (pos : Nat), InSequence content.length pos asc →
      asc.reverse.foldlM applyEditToLines [content]
        = some [content.take pos ++ simultaneous content pos asc]
  | [], pos, _ => by
    simp [simultaneous]
  | e :: rest, pos, h => by
    obtain ⟨hs, he, hpos, hse, hel, _, hrest⟩ := h
    rw [List.reverse_cons, List.foldlM_append,
      foldlM_reverse_inSequence content rest _ hrest]
    simp only [Option.bind_eq_bind, Option.some_bind, List.foldlM_cons, List.foldlM_nil]
    rw [applyEditToLines_eq_some]
    have hlen : (content.take e.Range.End.Character).length = e.Range.End.Character := by
      rw [List.length_take]; omega
    have htake : (content.take e.Range.End.Character
          ++ simultaneous content e.Range.End.Character rest).take e.Range.Start.Character
        = content.take e.Range.Start.Character := by
      rw [List.take_append_of_le_length (by omega), List.take_take,
        Nat.min_eq_left hse]
    have hdrop : (content.take e.Range.End.Character
          ++ simultaneous content e.Range.End.Character rest).drop e.Range.End.Character
        = simultaneous content e.Range.End.Character rest := by
      rw [List.drop_append_of_le_length (by omega), List.drop_of_length_le (by omega),
        List.nil_append]
    have hsplit : content.take e.Range.Start.Character
        = content.take pos ++ (content.take e.Range.Start.Character).drop pos := by
      have h1 := (List.take_append_drop pos (content.take e.Range.Start.Character)).symm
      rw [List.take_take, Nat.min_eq_left hpos] at h1
      exact h1
    have hbound : e.Range.Start.Character ≤ (content.take e.Range.End.Character
          ++ simultaneous content e.Range.End.Character rest).length ∧
        e.Range.End.Character ≤ (content.take e.Range.End.Character
          ++ simultaneous content e.Range.End.Character rest).length := by
      rw [List.length_append, hlen]; omega
    unfold editedLines
    simp only [hs, he, if_true, List.getElem?_cons_zero, hbound, and_self, List.set_cons_zero,
      htake, hdrop]
    simp only [simultaneous]
    rw [Option.pure_def]
    conv_lhs => rw [hsplit]
    simp [List.append_assoc]

/-- C3: for a content without line separator and edits on line 0 whose
ascending arrangement `asc` satisfies `s1 ≤ e1 ≤ s2 ≤ ... ≤ en ≤ len(content)`
with pairwise distinct start characters, `applyEditsToContent` returns, for
every input order and every `sort.Slice` meeting its contract, the simultaneous
replacement `content[0:s1] ++ t1 ++ content[e1:s2] ++ ... ++ tn ++ content[en:]`
and a `nil` error. -/
theorem applyEditsToContent_simultaneous (sortSlice : SortSlice)
    (hS : SortSliceSpec sortSlice) (content : GoString) (edits asc : List TextEdit)
    (hline : newline ∉ content) (hperm : edits.Perm asc)
    (hseq : InSequence content.length 0 asc) :
    applyEditsToContent sortSlice content edits
      = some (simultaneous content 0 asc, none) := by
  unfold applyEditsToContent
  by_cases hlen : edits.length = 0
  · have he : edits = [] := List.length_eq_zero.1 hlen
    subst he
    have ha : asc = [] := hperm.symm.eq_nil
    subst ha
    simp [simultaneous]
  · have hsorted : sortSlice editLess edits = asc.reverse :=
      eq_of_perm_of_strictly_sorted editLess _ _
        ((hS edits).1.trans (hperm.trans (List.reverse_perm asc).symm)) (hS edits).2
        (InSequence.strictly_descending _ asc 0 hseq)
    rw [if_neg hlen, hsorted, splitLines_of_no_newline content hline]
    simp only [Option.bind_eq_bind]
    rw [foldlM_reverse_inSequence content asc 0 hseq]
    simp [joinLines]

/-- C3, at two replacements of `config` by `pkg_config` on one line, given in
descending order. -/
theorem applyEditsToContent_simultaneous_witness :
    applyEditsToContent insertionSortSlice (ascii "a == config.Dev || b == config.Prod")
        [mkEdit 0 23 0 29 (ascii "pkg_config"), mkEdit 0 5 0 11 (ascii "pkg_config")]
      = some (simultaneous (ascii "a == config.Dev || b == config.Prod") 0
          [mkEdit 0 5 0 11 (ascii "pkg_config"), mkEdit 0 23 0 29 (ascii "pkg_config")],
          none) :=
  applyEditsToContent_simultaneous insertionSortSlice insertionSortSlice_spec
    (ascii "a == config.Dev || b == config.Prod")
    [mkEdit 0 23 0 29 (ascii "pkg_config"), mkEdit 0 5 0 11 (ascii "pkg_config")]
    [mkEdit 0 5 0 11 (ascii "pkg_config"), mkEdit 0 23 0 29 (ascii "pkg_config")]
    (by decide) (List.Perm.swap _ _ _) (by simp [InSequence, mkEdit, ascii])

/-! ## Preview mode -/

theorem applyTextEdits_preview_fs {σ : Type} (sortSlice : SortSlice) (ops : FileOps σ)
    (uri : GoString) (edits : List TextEdit) (w : World σ) :
    (applyTextEdits sortSlice ops uri edits true w).1.fs = w.fs := by
  unfold applyTextEdits
  cases uriToFilePath uri with
  | none => rfl
  | some filePath =>
    simp only []
    cases ops.ReadFile w.fs filePath with
    | error err => rfl
    | ok content =>
      simp only []
      cases applyEditsToContent sortSlice content edits with
      | none => rfl
      | some res =>
        obtain ⟨modifiedContent, err⟩ := res
        cases err <;> rfl

theorem applyChangesLoop_preview_fs {σ : Type} (sortSlice : SortSlice) (ops : FileOps σ) :
    ∀ (changes : List (GoString × List TextEdit)) (w : World σ),
      (applyChangesLoop sortSlice ops true changes w).1.fs = w.fs
  | [], _ => rfl
  | (uri, edits) :: rest, w => by
    have h := applyTextEdits_preview_fs sortSlice ops uri edits w
    unfold applyChangesLoop
    cases hres : applyTextEdits sortSlice ops uri edits true w with
    | mk w1 out =>
      rw [hres] at h
      cases out with
      | ok => simp only []; rw [applyChangesLoop_preview_fs sortSlice ops rest w1]; exact h
      | error err => exact h
      | panic => exact h

theorem applyDocumentChangesLoop_preview_fs {σ : Type} (sortSlice : SortSlice)
    (ops : FileOps σ) :
    ∀ (changes : List TextDocumentEdit) (w : World σ),
      (applyDocumentChangesLoop sortSlice ops true changes w).1.fs = w.fs
  | [], _ => rfl
  | docChange :: rest, w => by
    have h := applyTextEdits_preview_fs sortSlice ops docChange.URI docChange.Edits w
    unfold applyDocumentChangesLoop
    cases hres : applyTextEdits sortSlice ops docChange.URI docChange.Edits true w with
    | mk w1 out =>
      rw [hres] at h
      cases out with
      | ok =>
        simp only []
        rw [applyDocumentChangesLoop_preview_fs sortSlice ops rest w1]; exact h
      | error err => exact h
      | panic => exact h

/-- C8: with `preview = true`, `ApplyWorkspaceEdit` leaves the file-system
state as it found it, whatever the edit, the behaviour of the operating
system's calls and the outcome of the call (success, error or panic); so every
file reads after the call as it read before. -/
theorem ApplyWorkspaceEdit_preview_no_write {σ : Type} (sortSlice : SortSlice)
    (ops : FileOps σ) (edit : Option WorkspaceEdit) (w : World σ) :
    (ApplyWorkspaceEdit sortSlice ops edit true w).1.fs = w.fs ∧
    ∀ path, ops.ReadFile (ApplyWorkspaceEdit sortSlice ops edit true w).1.fs path
      = ops.ReadFile w.fs path := by
  have hfs : (ApplyWorkspaceEdit sortSlice ops edit true w).1.fs = w.fs := by
    unfold ApplyWorkspaceEdit
    cases edit with
    | none => rfl
    | some edit =>
      simp only []
      have h := applyChangesLoop_preview_fs sortSlice ops edit.Changes w
      cases hres : applyChangesLoop sortSlice ops true edit.Changes w with
      | mk w1 out =>
        rw [hres] at h
        cases out with
        | ok =>
          simp only []
          rw [applyDocumentChangesLoop_preview_fs sortSlice ops edit.DocumentChanges w1]
          exact h
        | error err => exact h
        | panic => exact h
  exact ⟨hfs, fun path => by rw [hfs]⟩

/-! ## Integer-valued identifiers decoded as `float64` -/

namespace Float64

/-- The magnitude equation behind `represents`. -/
theorem represents_natAbs (f : Float64) (n : Int) (h : f.represents n) :
    f.mant * 2 ^ f.exp.toNat = n.natAbs * 2 ^ (-f.exp).toNat := by
  unfold represents at h
  have h2 := congrArg Int.natAbs h
  simp only [Int.natAbs_mul, Int.natAbs_pow] at h2
  have hs : (if f.neg then (-1 : Int) else 1).natAbs = 1 := by
    cases f.neg <;> simp
  rw [hs] at h2
  simpa using h2

theorem represents_sign (f : Float64) (n : Int) (h : f.represents n) (hm : f.mant ≠ 0) :
    f.neg = decide (n < 0) := by
  unfold represents at h
  have hm2 : (0 : Int) < (f.mant : Int) := by
    have := Nat.pos_of_ne_zero hm
    exact_mod_cast this
  have hp : (0 : Int) < (f.mant : Int) * 2 ^ f.exp.toNat := by positivity
  have hq : (0 : Int) < 2 ^ (-f.exp).toNat := by positivity
  cases hneg : f.neg
  · simp only [hneg, Bool.false_eq_true, if_false, one_mul] at h
    have hn : ¬ n < 0 := by
      intro hc
      have := mul_neg_of_neg_of_pos hc hq
      linarith
    simp [hn]
  · simp only [hneg, if_true] at h
    have hn : n < 0 := by
      by_contra hc
      have := mul_nonneg (not_lt.mp hc) (le_of_lt hq)
      have h3 : (-1 : Int) * (f.mant : Int) * 2 ^ f.exp.toNat
          = -((f.mant : Int) * 2 ^ f.exp.toNat) := by ring
      linarith
    simp [hn]

theorem trunc_of_represents (f : Float64) (n : Int) (h : f.represents n) : f.trunc = n := by
  have hmag := represents_natAbs f n h
  have hq : 0 < 2 ^ (-f.exp).toNat := by positivity
  unfold trunc
  simp only [hmag, Nat.mul_div_cancel _ hq]
  by_cases hm : f.mant = 0
  · have hz : n.natAbs = 0 := by
      rw [hm, zero_mul] at hmag
      rcases Nat.mul_eq_zero.1 hmag.symm with h1 | h1
      · exact h1
      · omega
    have : n = 0 := Int.natAbs_eq_zero.1 hz
    subst this
    simp
  · have hs := represents_sign f n h hm
    cases hneg : f.neg
    · rw [hneg] at hs
      have hn : 0 ≤ n := by
        have : ¬ n < 0 := by simpa using hs.symm
        omega
      rw [if_neg (by simp)]
      exact Int.natAbs_of_nonneg hn
    · rw [hneg] at hs
      have hn : n < 0 := by simpa using hs.symm
      rw [if_pos rfl, Int.ofNat_natAbs_of_nonpos (le_of_lt hn)]
      omega

theorem toInt64_of_represents (overflow : Float64 → Int) (f : Float64) (n : Int)
    (h : f.represents n) (hlo : -2 ^ 63 ≤ n) (hhi : n < 2 ^ 63) :
    f.toInt64 overflow = n := by
  unfold toInt64
  rw [trunc_of_represents f n h, if_pos ⟨hlo, hhi⟩]

/-- When the bits that `float64(i)` drops are all zero, the conversion is the
exact quotient. -/
theorem ofInt64_of_dvd (n : Int) (hbig : ¬ n.natAbs < 2 ^ 53)
    (hdvd : 2 ^ (Nat.log2 n.natAbs - 52) ∣ n.natAbs) :
    ∃ hlt : n.natAbs / 2 ^ (Nat.log2 n.natAbs - 52) < 2 ^ 53,
      ofInt64 n = ⟨decide (n < 0), n.natAbs / 2 ^ (Nat.log2 n.natAbs - 52),
        ((Nat.log2 n.natAbs - 52 : Nat) : Int), hlt⟩ := by
  have hne : n.natAbs ≠ 0 := by
    intro hz; rw [hz] at hbig; exact hbig (by positivity)
  have hlog2 : 53 ≤ Nat.log2 n.natAbs := by
    rw [Nat.le_log2 hne]; omega
  have hlt : n.natAbs / 2 ^ (Nat.log2 n.natAbs - 52) < 2 ^ 53 := by
    apply Nat.div_lt_of_lt_mul
    have h1 : n.natAbs < 2 ^ (Nat.log2 n.natAbs + 1) := Nat.lt_log2_self
    have h2 : Nat.log2 n.natAbs + 1 = (Nat.log2 n.natAbs - 52) + 53 := by omega
    rw [h2, pow_add] at h1
    exact h1
  have hr : n.natAbs % 2 ^ (Nat.log2 n.natAbs - 52) = 0 := Nat.mod_eq_zero_of_dvd hdvd
  have hhalf : 0 < 2 ^ (Nat.log2 n.natAbs - 52 - 1) := by positivity
  refine ⟨hlt, ?_⟩
  unfold ofInt64
  simp only [hbig, dif_neg, not_false_eq_true, hr]
  have hno : ¬ (2 ^ (Nat.log2 n.natAbs - 52 - 1) < 0 ∨
      (0 = 2 ^ (Nat.log2 n.natAbs - 52 - 1) ∧
        n.natAbs / 2 ^ (Nat.log2 n.natAbs - 52) % 2 = 1)) := by
    omega
  simp only [hno, if_false, hlt, dif_pos]

/-- Converting an integer that a float represents gives a float equal to it. -/
theorem eq_ofInt64_of_represents (f : Float64) (n : Int) (h : f.represents n) :
    f.eq (ofInt64 n) = true := by
  have hmag := represents_natAbs f n h
  have hsign : f.mant ≠ 0 → f.neg = decide (n < 0) := represents_sign f n h
  unfold eq
  rw [decide_eq_true_iff]
  by_cases hm : f.mant = 0
  · left
    have hz : n.natAbs = 0 := by
      rw [hm, zero_mul] at hmag
      rcases Nat.mul_eq_zero.1 hmag.symm with h1 | h1
      · exact h1
      · have : 0 < 2 ^ (-f.exp).toNat := by positivity
        omega
    refine ⟨hm, ?_⟩
    unfold ofInt64
    simp [hz]
  · right
    by_cases hsmall : n.natAbs < 2 ^ 53
    · have hof : ofInt64 n = ⟨decide (n < 0), n.natAbs, 0, hsmall⟩ := by
        unfold ofInt64
        simp only [hsmall, dif_pos]
      rw [hof]
      refine ⟨hsign hm, ?_⟩
      simp only
      rcases le_total 0 f.exp with he | he
      · have h0 : (-f.exp).toNat = 0 := by omega
        rw [h0, pow_zero, mul_one] at hmag
        rw [min_eq_right he]
        simp only [sub_zero, sub_self, Int.toNat_zero, pow_zero, mul_one]
        exact hmag
      · have h0 : f.exp.toNat = 0 := by omega
        rw [h0, pow_zero, mul_one] at hmag
        rw [min_eq_left he]
        simp only [sub_self, Int.toNat_zero, pow_zero, mul_one, zero_sub]
        exact hmag
    · -- the significand has at most 53 bits, so the exponent is positive
      have he : 0 ≤ f.exp := by
        by_contra hc
        have h0 : f.exp.toNat = 0 := by omega
        rw [h0, pow_zero, mul_one] at hmag
        have h1 : 1 ≤ 2 ^ (-f.exp).toNat := Nat.one_le_two_pow
        have : n.natAbs ≤ f.mant := by
          rw [hmag]; exact Nat.le_mul_of_pos_right _ h1
        have := f.mant_lt
        omega
      have h0 : (-f.exp).toNat = 0 := by omega
      rw [h0, pow_zero, mul_one] at hmag
      have hne : n.natAbs ≠ 0 := by
        intro hz; rw [hz] at hsmall; exact hsmall (by positivity)
      have hlog : Nat.log2 n.natAbs < 53 + f.exp.toNat := by
        rw [Nat.log2_lt hne]
        calc n.natAbs = f.mant * 2 ^ f.exp.toNat := hmag.symm
          _ < 2 ^ 53 * 2 ^ f.exp.toNat :=
            Nat.mul_lt_mul_of_pos_right f.mant_lt (by positivity)
          _ = 2 ^ (53 + f.exp.toNat) := (pow_add 2 53 f.exp.toNat).symm
      obtain ⟨d, hd⟩ : ∃ d, f.exp.toNat = d + (Nat.log2 n.natAbs - 52) :=
        ⟨f.exp.toNat - (Nat.log2 n.natAbs - 52), by omega⟩
      have hfac : f.mant * 2 ^ d * 2 ^ (Nat.log2 n.natAbs - 52) = n.natAbs := by
        rw [mul_assoc, ← pow_add, ← hd]; exact hmag
      have hdvd : 2 ^ (Nat.log2 n.natAbs - 52) ∣ n.natAbs := ⟨f.mant * 2 ^ d, by
        rw [mul_comm]; exact hfac.symm⟩
      obtain ⟨hlt, hof⟩ := ofInt64_of_dvd n hsmall hdvd
      have hq : n.natAbs / 2 ^ (Nat.log2 n.natAbs - 52) = f.mant * 2 ^ d :=
        Nat.div_eq_of_eq_mul_left (by positivity) hfac.symm
      rw [hof]
      refine ⟨hsign hm, ?_⟩
      simp only
      have hle : ((Nat.log2 n.natAbs - 52 : Nat) : Int) ≤ f.exp := by omega
      rw [min_eq_right hle, hq]
      have e1 : (f.exp - ((Nat.log2 n.natAbs - 52 : Nat) : Int)).toNat = d := by omega
      rw [e1]
      simp
end Float64

theorem normalizeID_of_represents (overflow : Float64 → Int) (f : Float64) (n : Int)
    (h : f.represents n) (hlo : -2 ^ 63 ≤ n) (hhi : n < 2 ^ 63) :
    normalizeID overflow (.float64 f) = .int64 n := by
  unfold normalizeID
  simp only [Float64.toInt64_of_represents overflow f n h hlo hhi,
    Float64.eq_ofInt64_of_represents f n h, if_true]

/-! ## Delivery of responses -/

/-- C9 (as stated, refuted): request 1 is pending on channel 0, which already
holds a first response; a second response with identifier 1 is not handed to
the slot: the call returns with every slot as before, the slot still holding
the first response. -/
theorem handleResponse_full_slot_drops :
    clientWithFullSlot.requests 1 = some 0 ∧
    Float64.represents floatOne 1 ∧
    (handleResponse overflowAmd64 clientWithFullSlot (responseOne "[]")).map (fun c => c.chans)
      = some [some (responseOne "{}")] ∧
    responseOne "[]" ≠ responseOne "{}" := by
  refine ⟨rfl, by decide, by decide, by decide⟩

/-- C9 (amended): for a response whose identifier has the integer value `n`,
decoded as an `int64` or as a `float64` representing `n`, `handleResponse`
returns; if a request is registered under `n` and its slot is empty, the
response is put in that slot and nothing else changes; if the slot already
holds a response, or no request is registered under `n`, the response is
dropped and the client state is unchanged. -/
theorem handleResponse_delivers_by_id (overflow : Float64 → Int) (c : Client)
    (response : JSONRPCResponse) (n : Int) (hlo : -2 ^ 63 ≤ n) (hhi : n < 2 ^ 63)
    (hid : response.ID = .int64 n ∨
      ∃ f, response.ID = .float64 f ∧ Float64.represents f n) :
    handleResponse overflow c response = some
      (match c.requests n with
       | none => c
       | some responseChan =>
         if c.chans[responseChan]? = some none then
           { c with chans := c.chans.set responseChan (some response) }
         else c) := by
  have hnorm : normalizeID overflow response.ID = .int64 n := by
    rcases hid with h | ⟨f, h, hf⟩
    · rw [h]; rfl
    · rw [h]; exact normalizeID_of_represents overflow f n hf hlo hhi
  unfold handleResponse
  simp only [hnorm, lookupRequest]
  cases hreq : c.requests n with
  | none => rfl
  | some responseChan =>
    simp only []
    cases hch : c.chans[responseChan]? with
    | none => simp
    | some slot =>
      cases slot with
      | none => simp
      | some held => simp

/-- C9 (amended), at a response with identifier `1.0` for the pending request 1
whose slot is empty. -/
theorem handleResponse_delivers_by_id_witness :
    handleResponse overflowAmd64
        { clientWithFullSlot with chans := [none] } (responseOne "[]") = some
      (match ({ clientWithFullSlot with chans := [none] } : Client).requests 1 with
       | none => { clientWithFullSlot with chans := [none] }
       | some responseChan =>
         if ({ clientWithFullSlot with chans := [none] } : Client).chans[responseChan]?
             = some none then
           { ({ clientWithFullSlot with chans := [none] } : Client) with
             chans := ({ clientWithFullSlot with chans := [none] } : Client).chans.set
               responseChan (some (responseOne "[]")) }
         else { clientWithFullSlot with chans := [none] }) :=
  handleResponse_delivers_by_id overflowAmd64 { clientWithFullSlot with chans := [none] }
    (responseOne "[]") 1 (by decide) (by decide) (Or.inr ⟨floatOne, rfl, by decide⟩)

/-! ## The pending entry of `sendRequest` -/

theorem handleResponse_requests (overflow : Float64 → Int) (c c1 : Client)
    (response : JSONRPCResponse) (h : handleResponse overflow c response = some c1) :
    c1.requests = c.requests := by
  unfold handleResponse at h
  simp only [] at h
  split at h
  · cases h
  · cases h; rfl
  · split at h
    · cases h; rfl
    · cases h; rfl

theorem foldlM_handleResponse_requests (overflow : Float64 → Int) :
    ∀ (arrivals : List JSONRPCResponse) (c c1 : Client),
      arrivals.foldlM (handleResponse overflow) c = some c1 → c1.requests = c.requests
  | [], c, c1, h => by
    simp only [List.foldlM_nil, Option.pure_def, Option.some.injEq] at h
    rw [h]
  | r :: rest, c, c1, h => by
    rw [List.foldlM_cons] at h
    cases hr : handleResponse overflow c r with
    | none => rw [hr] at h; cases h
    | some c2 =>
      rw [hr] at h
      simp only [Option.bind_eq_bind, Option.some_bind] at h
      rw [foldlM_handleResponse_requests overflow rest c2 c1 h,
        handleResponse_requests overflow c c2 r hr]

theorem sendMessage_requests (json : JSONCodec) (c : Client) (message : OutMessage) :
    (sendMessage json c message).1.requests = c.requests := by
  unfold sendMessage
  cases json.Marshal message with
  | error err => rfl
  | ok data =>
    simp only []
    cases c.stdin.failure <;> rfl

/-- The table at every return of `sendRequest` is the table at the call with
the entry of the new identifier removed. -/
theorem sendRequest_requests (json : JSONCodec) (overflow : Float64 → Int) (env : WaitEnv)
    (c : Client) (method params : GoString) (wantResult : Bool) (c1 : Client)
    (result : Except GoError (Option GoString))
    (h : sendRequest json overflow env c method params wantResult = some (c1, result)) :
    c1.requests = Function.update
      (Function.update c.requests (wrapInt64 (c.requestID + 1)) (some c.chans.length))
      (wrapInt64 (c.requestID + 1)) none := by
  unfold sendRequest at h
  simp only [] at h
  split at h
  · next c2 err hsend =>
    have hsm := congrArg (fun p : Client × Option GoError => p.1.requests) hsend
    simp only [sendMessage_requests] at hsm
    simp only [Option.some.injEq, Prod.mk.injEq] at h
    rw [← h.1]
    simp only [← hsm]
  · next c2 hsend =>
    have hsm := congrArg (fun p : Client × Option GoError => p.1.requests) hsend
    simp only [sendMessage_requests] at hsm
    split at h
    · cases h
    · next c3 hfold =>
      have h3 := foldlM_handleResponse_requests overflow _ _ _ hfold
      simp only [] at h3
      have key : c3.requests = Function.update c.requests (wrapInt64 (c.requestID + 1))
          (some c.chans.length) := by rw [h3, ← hsm]
      clear hfold hsend
      split at h <;> (try split at h) <;> (try split at h) <;> (try split at h) <;>
        (simp only [Option.some.injEq, Prod.mk.injEq] at h
         rw [← h.1]
         simp only [key])

theorem handleResponse_returns (overflow : Float64 → Int) (c : Client)
    (response : JSONRPCResponse) (hid : response.ID ≠ .composite) :
    ∃ c1, handleResponse overflow c response = some c1 := by
  have hnorm : normalizeID overflow response.ID ≠ .composite := by
    unfold normalizeID
    cases hr : response.ID with
    | float64 f => simp only []; split <;> simp
    | composite => exact absurd hr hid
    | null => simp
    | bool b => simp
    | int64 n => simp
    | string t => simp
  unfold handleResponse
  simp only []
  cases hn : normalizeID overflow response.ID with
  | composite => exact absurd hn hnorm
  | int64 n =>
    simp only [lookupRequest]
    cases c.requests n with
    | none => exact ⟨_, rfl⟩
    | some responseChan =>
      simp only []
      split <;> exact ⟨_, rfl⟩
  | null => exact ⟨_, rfl⟩
  | bool b => exact ⟨_, rfl⟩
  | float64 f => exact ⟨_, rfl⟩
  | string t => exact ⟨_, rfl⟩

theorem foldlM_handleResponse_returns (overflow : Float64 → Int) :
    ∀ (arrivals : List JSONRPCResponse) (c : Client),
      (∀ r ∈ arrivals, r.ID ≠ .composite) →
      ∃ c1, arrivals.foldlM (handleResponse overflow) c = some c1
  | [], c, _ => ⟨c, rfl⟩
  | r :: rest, c, h => by
    obtain ⟨c2, h2⟩ := handleResponse_returns overflow c r (h r (List.mem_cons_self _ _))
    obtain ⟨c3, h3⟩ := foldlM_handleResponse_returns overflow rest c2
      (fun x hx => h x (List.mem_cons_of_mem _ hx))
    exact ⟨c3, by rw [List.foldlM_cons, h2]; exact h3⟩

/-- `sendRequest` returns whenever the identifiers of the responses that arrive
during the wait can be hashed: the timer bounds the wait. -/
theorem sendRequest_returns (json : JSONCodec) (overflow : Float64 → Int) (env : WaitEnv)
    (c : Client) (method params : GoString) (wantResult : Bool)
    (harrivals : ∀ r ∈ env.arrivals, r.ID ≠ .composite) :
    ∃ c1 result, sendRequest json overflow env c method params wantResult
      = some (c1, result) := by
  unfold sendRequest
  simp only []
  split
  · exact ⟨_, _, rfl⟩
  · next c2 hsend =>
    obtain ⟨c3, h3⟩ := foldlM_handleResponse_returns overflow env.arrivals
      { c2 with done := c2.done || env.cancelled } harrivals
    rw [h3]
    simp only []
    split <;> (try split) <;> (try split) <;> (try split) <;> exact ⟨_, _, rfl⟩

/-- C10: whenever `sendRequest` returns, with a result or with any of its
errors, the identifier it registered is absent from the pending-request table,
every other entry of the table is as it was at the call, and a response that
arrives later under that identifier is dropped without any effect. -/
theorem sendRequest_removes_pending_entry (json : JSONCodec) (overflow : Float64 → Int)
    (env : WaitEnv) (c : Client) (method params : GoString) (wantResult : Bool)
    (c1 : Client) (result : Except GoError (Option GoString))
    (h : sendRequest json overflow env c method params wantResult = some (c1, result)) :
    c1.requests (wrapInt64 (c.requestID + 1)) = none ∧
    (∀ k, k ≠ wrapInt64 (c.requestID + 1) → c1.requests k = c.requests k) ∧
    (∀ late : JSONRPCResponse,
      normalizeID overflow late.ID = .int64 (wrapInt64 (c.requestID + 1)) →
      handleResponse overflow c1 late = some c1) := by
  have hreq := sendRequest_requests json overflow env c method params wantResult c1 result h
  have hnone : c1.requests (wrapInt64 (c.requestID + 1)) = none := by
    rw [hreq, Function.update_same]
  refine ⟨hnone, ?_, ?_⟩
  · intro k hk
    rw [hreq, Function.update_noteq hk, Function.update_noteq hk]
  · intro late hlate
    unfold handleResponse
    simp only [hlate, lookupRequest, hnone]

/-- C10, at the first request of a fresh client whose response arrives during
the wait. -/
theorem sendRequest_removes_pending_entry_witness :
    ∃ c1 result,
      sendRequest plainCodec overflowAmd64 ⟨[responseOne "{}"], false, .response⟩
        freshClient (ascii "initialize") (ascii "{}") true = some (c1, result) ∧
      c1.requests (wrapInt64 (freshClient.requestID + 1)) = none ∧
      (∀ k, k ≠ wrapInt64 (freshClient.requestID + 1) →
        c1.requests k = freshClient.requests k) ∧
      (∀ late : JSONRPCResponse,
        normalizeID overflowAmd64 late.ID = .int64 (wrapInt64 (freshClient.requestID + 1)) →
        handleResponse overflowAmd64 c1 late = some c1) := by
  obtain ⟨⟨c1, result⟩, h⟩ := Option.isSome_iff_exists.1
    (show (sendRequest plainCodec overflowAmd64 ⟨[responseOne "{}"], false, .response⟩
      freshClient (ascii "initialize") (ascii "{}") true).isSome = true by decide)
  exact ⟨c1, result, h,
    sendRequest_removes_pending_entry plainCodec overflowAmd64 _ freshClient _ _ true
      c1 result h⟩

/-! ## `InferDefaultAlias` -/

theorem splitOn_ne_nil (sep : UInt8) : ∀ s : GoString, splitOn sep s ≠ []
  | [] => by simp [splitOn]
  | c :: cs => by
    unfold splitOn
    split
    · simp
    · split <;> simp

theorem splitOn_of_not_mem (sep : UInt8) : ∀ s : GoString, sep ∉ s → splitOn sep s = [s]
  | [], _ => rfl
  | c :: cs, h => by
    have hc : c ≠ sep := fun hc => h (by simp [hc])
    have hcs : sep ∉ cs := fun hcs => h (List.mem_cons_of_mem _ hcs)
    simp [splitOn, hc, splitOn_of_not_mem sep cs hcs]

/-- Splitting distributes over a separator: the pieces of `a ++ sep :: b` are
the pieces of `a` followed by the pieces of `b`. -/
theorem splitOn_append_sep (sep : UInt8) (b : GoString) :
    ∀ a : GoString, splitOn sep (a ++ sep :: b) = splitOn sep a ++ splitOn sep b
  | [] => by simp [splitOn]
  | c :: a => by
    have ih := splitOn_append_sep sep b a
    by_cases hc : c = sep
    · simp [splitOn, hc, ih]
    · have hne := splitOn_ne_nil sep a
      cases hsa : splitOn sep a with
      | nil => exact absurd hsa hne
      | cons l ls =>
        rw [hsa] at ih
        simp [splitOn, hc, ih, hsa]

theorem exists_last_occurrence (sep : UInt8) : ∀ s : GoString, sep ∈ s →
    ∃ pre rest, s = pre ++ sep :: rest ∧ sep ∉ rest
  | [], h => by cases h
  | c :: cs, h => by
    by_cases hcs : sep ∈ cs
    · obtain ⟨pre, rest, hEq, hrest⟩ := exists_last_occurrence sep cs hcs
      exact ⟨c :: pre, rest, by rw [hEq]; rfl, hrest⟩
    · have hc : sep = c := by
        rcases List.mem_cons.1 h with h1 | h1
        · exact h1
        · exact absurd h1 hcs
      exact ⟨[], cs, by rw [hc]; rfl, hcs⟩

/-- C15: `InferDefaultAlias(p)` returns the last path segment of `p`: `p`
itself when `p` has no `/`, otherwise the part after the last `/`. The result
never contains `/`, and is empty when `p` is empty or ends with `/`. -/
theorem InferDefaultAlias_last_segment (p : GoString) :
    ∃ seg, InferDefaultAlias p = some seg ∧
      ((slash ∉ p ∧ seg = p) ∨ (∃ pre, p = pre ++ slash :: seg)) ∧
      slash ∉ seg ∧
      (p = [] → seg = []) ∧
      (∀ pre, p = pre ++ [slash] → seg = []) := by
  have hdef : InferDefaultAlias p = (splitOn slash p).getLast? := by
    unfold InferDefaultAlias
    simp only []
    rw [if_neg (fun h => splitOn_ne_nil slash p (List.length_eq_zero.1 h)),
      List.getLast?_eq_getElem?]
  have key : ∃ seg, InferDefaultAlias p = some seg ∧
      ((slash ∉ p ∧ seg = p) ∨ (∃ pre, p = pre ++ slash :: seg)) ∧ slash ∉ seg := by
    by_cases hmem : slash ∈ p
    · obtain ⟨pre, rest, hEq, hrest⟩ := exists_last_occurrence slash p hmem
      refine ⟨rest, ?_, Or.inr ⟨pre, hEq⟩, hrest⟩
      rw [hdef, hEq, splitOn_append_sep, splitOn_of_not_mem slash rest hrest]
      exact List.getLast?_concat _
    · refine ⟨p, ?_, Or.inl ⟨hmem, rfl⟩, hmem⟩
      rw [hdef, splitOn_of_not_mem slash p hmem]
      rfl
  obtain ⟨seg, hres, hseg, hno⟩ := key
  refine ⟨seg, hres, hseg, hno, ?_, ?_⟩
  · intro hp
    rcases hseg with ⟨_, h⟩ | ⟨pre, h⟩
    · rw [h, hp]
    · rw [hp] at h
      exact absurd h (by simp)
  · intro pre hp
    rcases hseg with ⟨h, _⟩ | ⟨pre2, h⟩
    · exact absurd (by rw [hp]; simp) h
    · -- both decompositions end the string: compare the last elements
      cases hal : seg.reverse with
      | nil => exact List.reverse_eq_nil_iff.1 hal
      | cons x xs =>
        exfalso
        have hrev := congrArg List.reverse (hp.symm.trans h)
        simp only [List.reverse_append, List.reverse_cons, List.reverse_nil, List.nil_append,
          List.singleton_append, hal, List.cons_append, List.append_assoc] at hrev
        have hx : slash = x := (List.cons.inj hrev).1
        apply hno
        have : x ∈ seg.reverse := by rw [hal]; simp
        rw [hx]
        exact List.mem_reverse.1 this

/-! ## `uriToFilePath` -/

/-- C16: `uriToFilePath` removes a leading `file://` and returns every other
string as it is: `uriToFilePath("file://" ++ p) = p`, and a string that does
not start with `file://` is returned unchanged. -/
theorem uriToFilePath_strips_scheme :
    (∀ p : GoString, uriToFilePath (ascii "file://" ++ p) = some p) ∧
    (∀ u : GoString, ¬ (ascii "file://" <+: u) → uriToFilePath u = some u) := by
  constructor
  · intro p
    have hpre : (ascii "file://").isPrefixOf (ascii "file://" ++ p) = true :=
      List.isPrefixOf_iff_prefix.2 (List.prefix_append _ _)
    have hlen : (ascii "file://").length = 7 := by decide
    unfold uriToFilePath sliceFrom
    rw [if_pos hpre, if_pos (by rw [List.length_append, hlen]; omega)]
    rw [← hlen, List.drop_left]
  · intro u hu
    have hpre : ¬ (ascii "file://").isPrefixOf u = true := fun h =>
      hu (List.isPrefixOf_iff_prefix.1 h)
    unfold uriToFilePath
    rw [if_neg hpre]

/-- C16, at the URIs of the repository's test. -/
theorem uriToFilePath_strips_scheme_witness :
    uriToFilePath (ascii "file://" ++ ascii "/Users/test/file.go")
      = some (ascii "/Users/test/file.go") ∧
    uriToFilePath (ascii "/Users/test/file.go") = some (ascii "/Users/test/file.go") :=
  ⟨uriToFilePath_strips_scheme.1 (ascii "/Users/test/file.go"),
    uriToFilePath_strips_scheme.2 (ascii "/Users/test/file.go") (by decide)⟩

/-! ## `GetGoFilesFromPackages` -/

theorem foldl_append_singleton {α β : Type} (f : α → β) :
    ∀ (l : List α) (acc : List β),
      l.foldl (fun files x => files ++ [f x]) acc = acc ++ l.map f
  | [], acc => by simp
  | x :: xs, acc => by
    rw [List.foldl_cons, foldl_append_singleton f xs, List.map_cons, List.append_assoc]
    rfl

theorem foldl_packages (packages : List Package) : ∀ acc : List GoString,
    packages.foldl
      (fun files pkg =>
        pkg.GoFiles.foldl (fun files goFile => files ++ [pkg.Dir ++ ascii "/" ++ goFile]) files)
      acc
    = acc ++ packages.flatMap
        (fun pkg => pkg.GoFiles.map (fun goFile => pkg.Dir ++ ascii "/" ++ goFile)) := by
  induction packages with
  | nil => intro acc; simp
  | cons pkg rest ih =>
    intro acc
    rw [List.foldl_cons, ih, foldl_append_singleton, List.flatMap_cons, List.append_assoc]

/-- C17: `GetGoFilesFromPackages` returns, package by package and file by file
in the order given, the strings `Dir ++ "/" ++ file`; the number of results is
the sum of the lengths of the `GoFiles` lists. -/
theorem GetGoFilesFromPackages_eq (packages : List Package) :
    GetGoFilesFromPackages packages
      = packages.flatMap
          (fun pkg => pkg.GoFiles.map (fun goFile => pkg.Dir ++ ascii "/" ++ goFile)) ∧
    (GetGoFilesFromPackages packages).length
      = (packages.map (fun pkg => pkg.GoFiles.length)).sum := by
  have h : GetGoFilesFromPackages packages
      = packages.flatMap
          (fun pkg => pkg.GoFiles.map (fun goFile => pkg.Dir ++ ascii "/" ++ goFile)) := by
    unfold GetGoFilesFromPackages
    rw [foldl_packages, List.nil_append]
  refine ⟨h, ?_⟩
  rw [h]
  induction packages with
  | nil => rfl
  | cons pkg rest ih =>
    rw [List.flatMap_cons, List.length_append, List.length_map, List.map_cons, List.sum_cons,
      ih (by unfold GetGoFilesFromPackages; rw [foldl_packages, List.nil_append])]

/-! ## Totality of `applyEditToLines` -/

/-- C19: for every list of lines and every edit, whatever its line numbers and
characters, no index or slice expression of `applyEditToLines` is out of range:
the function returns a list of lines. -/
theorem applyEditToLines_total (lines : List GoString) (edit : TextEdit) :
    ∃ result, applyEditToLines lines edit = some result :=
  ⟨editedLines lines edit, applyEditToLines_eq_some lines edit⟩

/-! ## The state check of `Rename` -/

/-- C13: on a client that has not completed `Initialize`, `Rename` returns the
error "client not initialized" and no `WorkspaceEdit`, and the client state is
the one before the call: nothing is written to the connection, no identifier
is allocated and the pending-request table is unchanged. -/
theorem Rename_not_initialized (json : JSONCodec) (overflow : Float64 → Int)
    (env : WaitEnv) (renv : RequestEnv) (c : Client) (filePath : GoString)
    (line character : Int) (newName : GoString) (h : c.initialized = false) :
    Rename json overflow env renv c filePath line character newName
      = some (c, .error .notInitialized) := by
  unfold Rename
  simp [h]

/-- C13, at a client that has never been initialized. -/
theorem Rename_not_initialized_witness :
    Rename plainCodec overflowAmd64 ⟨[], false, .timeout⟩ plainRequestEnv
        { freshClient with initialized := false } (ascii "/a.go") 3 7 (ascii "x")
      = some ({ freshClient with initialized := false }, .error .notInitialized) :=
  Rename_not_initialized plainCodec overflowAmd64 ⟨[], false, .timeout⟩ plainRequestEnv
    { freshClient with initialized := false } (ascii "/a.go") 3 7 (ascii "x") rfl

/-! ## `Rename` after `Close` -/

/-- On a pipe that refuses writes `sendMessage` changes nothing and returns its
error: the encoding error when `json.Marshal` fails, otherwise the write
error. -/
theorem sendMessage_closed_eq (json : JSONCodec) (c : Client) (message : OutMessage)
    (ferr : GoError) (h : c.stdin.failure = some ferr) :
    sendMessage json c message
      = (c, some (match json.Marshal message with
          | .error e => GoError.marshalMessage e
          | .ok _ => GoError.writeMessage ferr)) := by
  unfold sendMessage
  cases json.Marshal message with
  | error e => rfl
  | ok data => simp only [h]

/-- On a pipe that refuses writes `sendRequest` returns the send failure at
once: the identifier is allocated, a channel is made, the pending entry is
registered and removed again, and nothing is written. -/
theorem sendRequest_closed_eq (json : JSONCodec) (overflow : Float64 → Int) (env : WaitEnv)
    (c : Client) (method params : GoString) (wantResult : Bool) (ferr : GoError)
    (h : c.stdin.failure = some ferr) :
    sendRequest json overflow env c method params wantResult
      = some
        ({ c with
            requestID := wrapInt64 (c.requestID + 1)
            chans := c.chans ++ [none]
            requests := Function.update
              (Function.update c.requests (wrapInt64 (c.requestID + 1)) (some c.chans.length))
              (wrapInt64 (c.requestID + 1)) none },
          .error (.sendRequest
            (match json.Marshal ⟨some (wrapInt64 (c.requestID + 1)), method, params⟩ with
              | .error e => GoError.marshalMessage e
              | .ok _ => GoError.writeMessage ferr))) := by
  have hsend := sendMessage_closed_eq json
    { stdin := c.stdin, requestID := wrapInt64 (c.requestID + 1),
      requests := Function.update c.requests (wrapInt64 (c.requestID + 1))
        (some c.chans.length),
      chans := c.chans ++ [none], done := c.done, initialized := c.initialized,
      rootURI := c.rootURI }
    ⟨some (wrapInt64 (c.requestID + 1)), method, params⟩ ferr h
  unfold sendRequest
  simp only [hsend]

/-- C14 (as stated, refuted): a fresh client is initialized; after `Close` its
`initialized` flag is still set, and a `Rename` does not fail with the "client
not initialized" error: it allocates the identifier 1, attempts to send, and
fails because the write to the closed pipe fails. -/
theorem Rename_after_Close_attempts_send :
    freshClient.initialized = true ∧
    (Close freshClient).1.initialized = true ∧
    ∃ c1, Rename plainCodec overflowAmd64 ⟨[], false, .timeout⟩ plainRequestEnv
        (Close freshClient).1 (ascii "/a.go") 3 7 (ascii "x")
        = some (c1, .error (.renameRequest (.sendRequest
            (.writeMessage (.os (ascii "file already closed")))))) ∧
      c1.requestID = freshClient.requestID + 1 ∧
      GoError.renameRequest (.sendRequest (.writeMessage (.os (ascii "file already closed"))))
        ≠ GoError.notInitialized :=
  ⟨rfl, rfl, _, rfl, rfl, by decide⟩

/-- C14 (amended): `Close` on an initialized client leaves the `initialized`
flag set and the connection closed, every write failing with "file already
closed". In that state every `Rename` fails, and not with the state error:
when the path cannot be resolved it returns that error and changes nothing;
otherwise it allocates the next request identifier, makes a channel, registers
and removes its pending entry, and returns "rename request failed: failed to
send request: ..." because the message cannot be encoded or because the write
to the closed connection fails. Nothing is written and the client stays
closed. `Close` keeps the client closed and `Initialize` returns at once
without changing it. -/
theorem Close_is_terminal (json : JSONCodec) (overflow : Float64 → Int) (env : WaitEnv)
    (renv : RequestEnv) (c : Client) (hinit : c.initialized = true) :
    ClosedAfterReady (Close c).1 ∧
    (Close c).1.stdin.failure = some (.os (ascii "file already closed")) ∧
    (∀ c0 ferr, ClosedAfterReady c0 → c0.stdin.failure = some ferr →
      (∀ (filePath : GoString) (line character : Int) (newName : GoString),
        Rename json overflow env renv c0 filePath line character newName
          = (match renv.Abs filePath with
            | .error e => some (c0, .error (.absPath e))
            | .ok absPath =>
              some
                ({ c0 with
                    requestID := wrapInt64 (c0.requestID + 1)
                    chans := c0.chans ++ [none]
                    requests := Function.update
                      (Function.update c0.requests (wrapInt64 (c0.requestID + 1))
                        (some c0.chans.length))
                      (wrapInt64 (c0.requestID + 1)) none },
                  .error (.renameRequest (.sendRequest
                    (match json.Marshal
                        ⟨some (wrapInt64 (c0.requestID + 1)), ascii "textDocument/rename",
                          renv.renameParams (renv.File absPath) line character newName⟩ with
                      | .error e => GoError.marshalMessage e
                      | .ok _ => GoError.writeMessage ferr))))) ∧
        ∃ c1 err, Rename json overflow env renv c0 filePath line character newName
            = some (c1, .error err) ∧
          err ≠ .notInitialized ∧ c1.stdin = c0.stdin ∧ ClosedAfterReady c1) ∧
      ClosedAfterReady (Close c0).1 ∧
      Initialize json overflow env renv c0 = some (c0, none)) := by
  refine ⟨⟨hinit, rfl, rfl⟩, rfl, ?_⟩
  intro c0 ferr hc0 hferr
  obtain ⟨h1, h2, h3⟩ := hc0
  refine ⟨?_, ⟨h1, rfl, rfl⟩, ?_⟩
  · intro filePath line character newName
    have hexact : Rename json overflow env renv c0 filePath line character newName
        = (match renv.Abs filePath with
          | .error e => some (c0, .error (.absPath e))
          | .ok absPath =>
            some
              ({ c0 with
                  requestID := wrapInt64 (c0.requestID + 1)
                  chans := c0.chans ++ [none]
                  requests := Function.update
                    (Function.update c0.requests (wrapInt64 (c0.requestID + 1))
                      (some c0.chans.length))
                    (wrapInt64 (c0.requestID + 1)) none },
                .error (.renameRequest (.sendRequest
                  (match json.Marshal
                      ⟨some (wrapInt64 (c0.requestID + 1)), ascii "textDocument/rename",
                        renv.renameParams (renv.File absPath) line character newName⟩ with
                    | .error e => GoError.marshalMessage e
                    | .ok _ => GoError.writeMessage ferr))))) := by
      unfold Rename
      rw [if_neg (by simp [h1])]
      cases renv.Abs filePath with
      | error e => rfl
      | ok absPath =>
        simp only []
        rw [sendRequest_closed_eq json overflow env c0 (ascii "textDocument/rename")
          (renv.renameParams (renv.File absPath) line character newName) true ferr hferr]
    refine ⟨hexact, ?_⟩
    rw [hexact]
    cases renv.Abs filePath with
    | error e => exact ⟨c0, _, rfl, by simp, rfl, h1, h2, h3⟩
    | ok absPath => exact ⟨_, _, rfl, by simp, rfl, h1, h2, h3⟩
  · unfold Initialize
    simp [h1]

/-- C14 (amended), at a fresh initialized client. -/
theorem Close_is_terminal_witness :
    ClosedAfterReady (Close freshClient).1 ∧
    (Close freshClient).1.stdin.failure = some (.os (ascii "file already closed")) ∧
    (∀ c0 ferr, ClosedAfterReady c0 → c0.stdin.failure = some ferr →
      (∀ (filePath : GoString) (line character : Int) (newName : GoString),
        Rename plainCodec overflowAmd64 ⟨[], false, .timeout⟩ plainRequestEnv c0 filePath line character newName
          = (match plainRequestEnv.Abs filePath with
            | .error e => some (c0, .error (.absPath e))
            | .ok absPath =>
              some
                ({ c0 with
                    requestID := wrapInt64 (c0.requestID + 1)
                    chans := c0.chans ++ [none]
                    requests := Function.update
                      (Function.update c0.requests (wrapInt64 (c0.requestID + 1))
                        (some c0.chans.length))
                      (wrapInt64 (c0.requestID + 1)) none },
                  .error (.renameRequest (.sendRequest
                    (match plainCodec.Marshal
                        ⟨some (wrapInt64 (c0.requestID + 1)), ascii "textDocument/rename",
                          plainRequestEnv.renameParams (plainRequestEnv.File absPath) line character newName⟩ with
                      | .error e => GoError.marshalMessage e
                      | .ok _ => GoError.writeMessage ferr))))) ∧
        ∃ c1 err, Rename plainCodec overflowAmd64 ⟨[], false, .timeout⟩ plainRequestEnv c0 filePath line character newName
            = some (c1, .error err) ∧
          err ≠ .notInitialized ∧ c1.stdin = c0.stdin ∧ ClosedAfterReady c1) ∧
      ClosedAfterReady (Close c0).1 ∧
      Initialize plainCodec overflowAmd64 ⟨[], false, .timeout⟩ plainRequestEnv c0 = some (c0, none)) :=
  Close_is_terminal plainCodec overflowAmd64 ⟨[], false, .timeout⟩ plainRequestEnv
    freshClient rfl

/-! ## Dispatch of incoming messages -/

/-- A message without identifier, such as a notification, reaches no slot. -/
theorem dispatch_without_id_dropped (parse : GoString → Option WireMessage)
    (overflow : Float64 → Int) (c : Client) (content : GoString) (m : WireMessage)
    (hparse : parse content = some m) (hid : m.id = .null) :
    dispatch parse overflow c content = some c := by
  unfold dispatch handleResponse
  simp [hparse, WireMessage.toResponse, hid, normalizeID, lookupRequest]

/-- C18 (failing input): the rename request 2 is pending with an empty slot and
the server sends a request of its own, with a `method`, under the identifier 2.
The read loop decodes it as a response and puts it in the slot of the pending
request, without result and without error. -/
theorem dispatch_delivers_server_request :
    serverRequestTwo.method = some (ascii "workspace/configuration") ∧
    clientAwaitingRename.requests 2 = some 1 ∧
    clientAwaitingRename.chans[1]? = some none ∧
    (dispatch (fun _ => some serverRequestTwo) overflowAmd64 clientAwaitingRename
        (ascii "\x7b\"jsonrpc\":\"2.0\",\"id\":2,\"method\":\"workspace/configuration\",\"params\":\x7b\x7d\x7d")).map
      (fun c => c.chans)
      = some [none, some ⟨ascii "2.0", serverRequestTwo.id, none, none⟩] := by
  refine ⟨rfl, rfl, rfl, by decide⟩

/-! ## Decimal lengths: `strconv.Atoi` reads what `%d` prints -/

theorem digitValue_digitChar (d : Nat) (h : d < 10) :
    digitValue (Nat.digitChar d).toNat.toUInt8 = some d := by
  interval_cases d <;> rfl

theorem parseDigits_append : ∀ (a b : GoString) (acc : Nat),
    parseDigits (a ++ b) acc = (parseDigits a acc).bind (parseDigits b)
  | [], b, acc => rfl
  | c :: a, b, acc => by
    simp only [List.cons_append, parseDigits]
    cases digitValue c with
    | none => rfl
    | some d => exact parseDigits_append a b (acc * 10 + d)

/-- The digits that `Nat.toDigitsCore` puts in front of `ds` are decimal digit
bytes, at least one, and they write the number `n`. -/
theorem toDigitsCore_spec : ∀ (fuel n : Nat) (ds : List Char), n < fuel →
    ∃ pre : List Char, Nat.toDigitsCore 10 fuel n ds = pre ++ ds ∧ pre ≠ [] ∧
      (∀ ch ∈ pre, (digitValue ch.toNat.toUInt8).isSome = true) ∧
      ∀ acc, parseDigits (pre.map (fun ch => ch.toNat.toUInt8)) acc
        = some (acc * 10 ^ pre.length + n)
  | 0, n, _, h => absurd h (Nat.not_lt_zero n)
  | fuel + 1, n, ds, h => by
    have hd := digitValue_digitChar (n % 10) (Nat.mod_lt n (by decide))
    by_cases h0 : n / 10 = 0
    · refine ⟨[Nat.digitChar (n % 10)], ?_, by simp, ?_, ?_⟩
      · simp [Nat.toDigitsCore, h0]
      · intro ch hch
        rw [List.mem_singleton] at hch
        rw [hch, hd]; rfl
      · intro acc
        simp only [List.map_cons, List.map_nil, parseDigits, hd, List.length_singleton, pow_one]
        congr 1
        omega
    · obtain ⟨pre, hpre, hne, hdig, hval⟩ :=
        toDigitsCore_spec fuel (n / 10) (Nat.digitChar (n % 10) :: ds) (by omega)
      refine ⟨pre ++ [Nat.digitChar (n % 10)], ?_, by simp, ?_, ?_⟩
      · simp only [Nat.toDigitsCore, h0, if_false, hpre, List.append_assoc,
          List.singleton_append]
      · intro ch hch
        rcases List.mem_append.1 hch with h1 | h1
        · exact hdig ch h1
        · rw [List.mem_singleton] at h1
          rw [h1, hd]; rfl
      · intro acc
        rw [List.map_append, parseDigits_append, hval]
        simp only [List.map_cons, List.map_nil, Option.some_bind, parseDigits, hd,
          List.length_append, List.length_singleton]
        congr 1
        have := Nat.div_add_mod n 10
        rw [pow_succ]
        nlinarith [Nat.div_add_mod n 10]

/-- The decimal representation of a length: digits only, at least one, read
back by `parseDigits`. -/
theorem decimal_spec (n : Nat) :
    decimal n ≠ [] ∧ (∀ c ∈ decimal n, (digitValue c).isSome = true) ∧
    parseDigits (decimal n) 0 = some n := by
  obtain ⟨pre, hpre, hne, hdig, hval⟩ := toDigitsCore_spec (n + 1) n [] (Nat.lt_succ_self n)
  have hdec : decimal n = pre.map (fun ch => ch.toNat.toUInt8) := by
    unfold decimal Nat.toDigits
    rw [hpre, List.append_nil]
  refine ⟨?_, ?_, ?_⟩
  · rw [hdec]
    intro h
    exact hne (List.map_eq_nil_iff.1 h)
  · intro c hc
    rw [hdec, List.mem_map] at hc
    obtain ⟨ch, hch, rfl⟩ := hc
    exact hdig ch hch
  · rw [hdec, hval]
    simp

theorem digitValue_isSome_iff (c : UInt8) :
    (digitValue c).isSome = true ↔ 48 ≤ c.toNat ∧ c.toNat ≤ 57 := by
  unfold digitValue
  split <;> simp_all

theorem atoi_decimal (n : Nat) (h : n < 2 ^ 63) : atoi (decimal n) = some (n : Int) := by
  obtain ⟨hne, hdig, hval⟩ := decimal_spec n
  cases hs : decimal n with
  | nil => exact absurd hs hne
  | cons c cs =>
    have hc : 48 ≤ c.toNat ∧ c.toNat ≤ 57 :=
      (digitValue_isSome_iff c).1 (hdig c (by rw [hs]; simp))
    have h45 : c ≠ 45 := by
      intro h1; rw [h1] at hc; revert hc; decide
    have h43 : c ≠ 43 := by
      intro h1; rw [h1] at hc; revert hc; decide
    rw [hs] at hval
    unfold atoi
    simp only [h45, h43, or_self, if_false, decide_False, hval, reduceCtorEq,
      Bool.false_eq_true]
    have hrange : (-2 ^ 63 : Int) ≤ (n : Int) ∧ (n : Int) < 2 ^ 63 := by
      constructor
      · have : (0 : Int) ≤ (n : Int) := Int.ofNat_nonneg n
        omega
      · exact_mod_cast h
    rw [if_pos hrange]

/-! ## Trimming the header value -/

theorem spaceRunes_first_not_digit :
    ∀ r ∈ spaceRunes, (match r with
      | b :: _ => decide (¬ (48 ≤ b.toNat ∧ b.toNat ≤ 57))
      | [] => false) = true := by
  decide

theorem spaceRunes_last_not_digit :
    ∀ r ∈ spaceRunes, (match r.reverse with
      | b :: _ => decide (¬ (48 ≤ b.toNat ∧ b.toNat ≤ 57))
      | [] => false) = true := by
  decide

theorem stripSpaceLeft_digit (c : UInt8) (s : GoString)
    (hc : 48 ≤ c.toNat ∧ c.toNat ≤ 57) : stripSpaceLeft (c :: s) = none := by
  unfold stripSpaceLeft
  rw [Option.map_eq_none', List.find?_eq_none]
  intro r hr
  have h := spaceRunes_first_not_digit r hr
  cases r with
  | nil => simp at h
  | cons b t =>
    simp only [decide_eq_true_eq] at h
    have hb : (b == c) = false := by
      rw [beq_eq_false_iff_ne]
      intro hbc
      exact h (hbc ▸ hc)
    simp [List.isPrefixOf, hb]

theorem stripSpaceRight_digit (c : UInt8) (s : GoString)
    (hc : 48 ≤ c.toNat ∧ c.toNat ≤ 57) : stripSpaceRight (s ++ [c]) = none := by
  unfold stripSpaceRight
  rw [Option.map_eq_none', List.find?_eq_none]
  intro r hr
  have h := spaceRunes_last_not_digit r hr
  rw [List.reverse_append, List.reverse_singleton, List.singleton_append]
  cases hrev : r.reverse with
  | nil => rw [hrev] at h; simp at h
  | cons b t =>
    rw [hrev] at h
    simp only [decide_eq_true_eq] at h
    have hb : (b == c) = false := by
      rw [beq_eq_false_iff_ne]
      intro hbc
      exact h (hbc ▸ hc)
    simp [List.isPrefixOf, hb]

theorem stripSpaceLeft_space (s : GoString) : stripSpaceLeft (32 :: s) = some s := by
  simp [stripSpaceLeft, spaceRunes, List.isPrefixOf]

theorem stripSpaceRight_newline (s : GoString) : stripSpaceRight (s ++ [10]) = some s := by
  simp [stripSpaceRight, spaceRunes, List.isPrefixOf]

theorem stripSpaceRight_return (s : GoString) : stripSpaceRight (s ++ [13]) = some s := by
  simp [stripSpaceRight, spaceRunes, List.isPrefixOf]

/-- The value of a header `Content-Length: <digits>\r\n` after `TrimSpace` is
the digits. -/
theorem trimSpace_header_value (ds : GoString) (hne : ds ≠ [])
    (hdig : ∀ c ∈ ds, 48 ≤ c.toNat ∧ c.toNat ≤ 57) :
    trimSpace (32 :: (ds ++ [13, 10])) = ds := by
  obtain ⟨c, cs, rfl⟩ := List.exists_cons_of_ne_nil hne
  obtain ⟨init, last, hlast⟩ : ∃ init last, c :: cs = init ++ [last] :=
    ⟨(c :: cs).dropLast, (c :: cs).getLast (by simp), (List.dropLast_append_getLast _).symm⟩
  have hc := hdig c (by simp)
  have hl := hdig last (by rw [hlast]; simp)
  have hleft : trimLeftFuel (32 :: (c :: cs ++ [13, 10])).length (32 :: (c :: cs ++ [13, 10]))
      = c :: cs ++ [13, 10] := by
    rw [List.length_cons]
    simp only [trimLeftFuel, stripSpaceLeft_space, List.cons_append,
      stripSpaceLeft_digit c _ hc]
  unfold trimSpace
  simp only [hleft]
  have hlen : (c :: cs ++ [13, 10]).length = (cs.length + 1) + 1 + 1 := by simp
  rw [hlen]
  have e1 : c :: cs ++ [13, 10] = (c :: cs ++ [13]) ++ [10] := by simp
  have s1 : stripSpaceRight (c :: cs ++ [13, 10]) = some (c :: cs ++ [13]) := by
    rw [e1]; exact stripSpaceRight_newline _
  have s2 : stripSpaceRight (c :: cs ++ [13]) = some (c :: cs) :=
    stripSpaceRight_return _
  simp only [trimRightFuel, s1, s2]
  rw [hlast]
  simp only [stripSpaceRight_digit last init hl]

/-! ## Reading one frame -/

theorem readString_append (delim : UInt8) (b : GoString) :
    ∀ a : GoString, delim ∉ a →
      readString delim (a ++ delim :: b) = some (a ++ [delim], b)
  | [], _ => by simp [readString]
  | c :: a, h => by
    have hc : c ≠ delim := fun hc => h (by simp [hc])
    have ha : delim ∉ a := fun ha => h (List.mem_cons_of_mem _ ha)
    simp [readString, hc, readString_append delim b a ha]

theorem newline_not_mem_decimal (n : Nat) : newline ∉ decimal n := by
  intro h
  have := (digitValue_isSome_iff newline).1 ((decimal_spec n).2.1 newline h)
  revert this
  decide

/-- The read loop reads back one frame: on a stream that starts with the frame
of `data`, an iteration extracts `data` and leaves the rest of the stream. -/
theorem readFrame_frame (data rest : GoString) (hlen : data.length < 2 ^ 63) :
    readFrame (frame data ++ rest) = .frame data rest := by
  obtain ⟨hne, hdig, _⟩ := decimal_spec data.length
  have hdig2 : ∀ c ∈ decimal data.length, 48 ≤ c.toNat ∧ c.toNat ≤ 57 :=
    fun c hc => (digitValue_isSome_iff c).1 (hdig c hc)
  have hshape : frame data ++ rest
      = (ascii "Content-Length:" ++ 32 :: (decimal data.length ++ [13]))
        ++ newline :: ([13] ++ newline :: (data ++ rest)) := by
    have h1 : ascii "Content-Length: " = ascii "Content-Length:" ++ [32] := by decide
    have h2 : ascii "\r\n\r\n" = [13, newline, 13, newline] := by decide
    unfold frame
    rw [h1, h2]
    simp
  have hnl : newline ∉ ascii "Content-Length:" ++ 32 :: (decimal data.length ++ [13]) := by
    intro h
    rcases List.mem_append.1 h with h | h
    · revert h; decide
    · rcases List.mem_cons.1 h with h | h
      · revert h; decide
      · rcases List.mem_append.1 h with h | h
        · exact newline_not_mem_decimal _ h
        · revert h; decide
  have hline : (ascii "Content-Length:" ++ 32 :: (decimal data.length ++ [13])) ++ [newline]
      = ascii "Content-Length:" ++ 32 :: (decimal data.length ++ [13, 10]) := by
    simp [newline]
  have hpre : (ascii "Content-Length:").isPrefixOf
      (ascii "Content-Length:" ++ 32 :: (decimal data.length ++ [13, 10])) = true :=
    List.isPrefixOf_iff_prefix.2 (List.prefix_append _ _)
  have hblank : readString newline ([13] ++ newline :: (data ++ rest))
      = some ([13] ++ [newline], data ++ rest) :=
    readString_append newline _ [13] (by decide)
  unfold readFrame
  rw [hshape, readString_append newline _ _ hnl]
  simp only [hline, hpre, not_true_eq_false, if_false, List.drop_left,
    trimSpace_header_value _ hne hdig2, atoi_decimal _ hlen, hblank]
  have hnn : ¬ ((data.length : Int) < 0) := by omega
  rw [if_neg hnn, Int.toNat_ofNat, if_pos (by rw [List.length_append]; omega),
    List.take_left, List.drop_left]

/-! ## Framing round trip -/

theorem frame_length_pos (data : GoString) : 0 < (frame data).length := by
  unfold frame
  have h : (ascii "Content-Length: ").length = 16 := by decide
  simp only [List.length_append, h]
  omega

/-- The read loop on the frames of `payloads`, written one after the other:
with more iterations than bytes it extracts the payloads and ends at the end
of the stream. -/
theorem readLoop_frames : ∀ (payloads : List GoString) (fuel : Nat),
    (∀ d ∈ payloads, d.length < 2 ^ 63) →
    ((payloads.map frame).flatten).length < fuel →
    readLoop fuel ((payloads.map frame).flatten) = (payloads, .eof)
  | [], 0, _, h => absurd h (Nat.not_lt_zero _)
  | [], fuel + 1, _, _ => by
    simp [readLoop, readFrame, readString]
  | d :: rest, 0, _, h => absurd h (Nat.not_lt_zero _)
  | d :: rest, fuel + 1, hlen, hfuel => by
    have hd : d.length < 2 ^ 63 := hlen d (List.mem_cons_self _ _)
    have hrest : ∀ x ∈ rest, x.length < 2 ^ 63 :=
      fun x hx => hlen x (List.mem_cons_of_mem _ hx)
    have hpos := frame_length_pos d
    have hfuel2 : ((rest.map frame).flatten).length < fuel := by
      simp only [List.map_cons, List.flatten_cons, List.length_append] at hfuel
      omega
    have ih := readLoop_frames rest fuel hrest hfuel2
    simp only [List.map_cons, List.flatten_cons, readLoop, readFrame_frame d _ hd, ih]

/-- C11: when the message encodes to `data` and the pipe accepts the write,
`sendMessage` appends exactly `Content-Length: <len(data)>\r\n\r\n` followed
by `data` to the connection and returns no error; and the frame parsing of the
read loop, run over the frames of any payloads written one after the other,
extracts exactly these payloads, in order, and ends at the end of the
stream. -/
theorem framing_round_trip (json : JSONCodec) (c : Client) (message : OutMessage)
    (data : GoString) (payloads : List GoString)
    (hdata : json.Marshal message = .ok data) (hpipe : c.stdin.failure = none)
    (hlen : ∀ d ∈ payloads, d.length < 2 ^ 63) :
    (sendMessage json c message).2 = none ∧
    (sendMessage json c message).1.stdin.written
      = c.stdin.written ++ (ascii "Content-Length: " ++ decimal data.length
          ++ ascii "\r\n\r\n" ++ data) ∧
    readFrames ((payloads.map frame).flatten) = (payloads, .eof) := by
  refine ⟨?_, ?_, ?_⟩
  · unfold sendMessage
    simp [hdata, hpipe]
  · unfold sendMessage
    simp [hdata, hpipe]
  · unfold readFrames
    exact readLoop_frames payloads _ hlen (Nat.lt_succ_self _)

/-- C11, at a request of a fresh client and two payloads, one of them with a
line break and a header-like text inside. -/
theorem framing_round_trip_witness :
    (sendMessage plainCodec freshClient ⟨some 1, ascii "initialize", ascii "{}"⟩).2 = none ∧
    (sendMessage plainCodec freshClient ⟨some 1, ascii "initialize", ascii "{}"⟩).1.stdin.written
      = freshClient.stdin.written ++ (ascii "Content-Length: "
          ++ decimal (ascii "initialize{}").length ++ ascii "\r\n\r\n" ++ ascii "initialize{}") ∧
    readFrames (([ascii "\x7b\"id\":1\x7d", ascii "\nContent-Length: 3\r\n"].map frame).flatten)
      = ([ascii "\x7b\"id\":1\x7d", ascii "\nContent-Length: 3\r\n"], .eof) :=
  framing_round_trip plainCodec freshClient ⟨some 1, ascii "initialize", ascii "{}"⟩
    (ascii "initialize{}") [ascii "\x7b\"id\":1\x7d", ascii "\nContent-Length: 3\r\n"]
    rfl rfl (by decide)

/-! ## Header lines other than `Content-Length` -/

/-- A line that does not start with `Content-Length:` is skipped: header lines
in front of the `Content-Length` line do no harm. -/
theorem readFrame_skips_other_line (header rest : GoString) (hnl : newline ∉ header)
    (hother : ¬ (ascii "Content-Length:" <+: header ++ [newline])) :
    readFrame (header ++ newline :: rest) = .skip rest := by
  have hpre : ¬ (ascii "Content-Length:").isPrefixOf (header ++ [newline]) = true :=
    fun h => hother (List.isPrefixOf_iff_prefix.1 h)
  unfold readFrame
  rw [readString_append newline rest header hnl]
  simp [hpre]

/-- C12 (failing input): the frame
`Content-Length: 2\r\nContent-Type: x\r\n\r\n{}` has a second header line after
the `Content-Length` line. The read loop takes that line for the empty line and
extracts the two bytes `\r\n` as the body instead of `{}`; the payload is left
in the stream and lost. With the other header in front, the body is `{}`. -/
theorem readFrames_header_after_content_length :
    readFrames (ascii "Content-Length: 2\r\nContent-Type: x\r\n\r\n{}")
      = ([ascii "\r\n"], .eof) ∧
    readFrame (ascii "Content-Length: 2\r\nContent-Type: x\r\n\r\n{}")
      = .frame (ascii "\r\n") (ascii "{}") ∧
    readFrames (ascii "Content-Type: x\r\nContent-Length: 2\r\n\r\n{}")
      = ([ascii "{}"], .eof) := by
  decide

end Goalias
